import Mathlib

/-!
A shallow embedding of the credential-sanitizing task-plan pipeline of
`backend/llama_action_planner.py` (with `backend/Refined_backend.py` as a
secondary source for the response normalizer), together with proofs about
the behaviour that the specification describes.

Strings are modelled as `String`/`List Char`; the Python regular
expressions are transcribed as explicit character-list scanners, each one
documented with the regex it implements.  Python's ASCII case and
whitespace semantics are used (all data handled by the planner is ASCII).
Interactive input (`getpass`) is modelled as an oracle function from the
service name to the typed secret, and `os.environ` together with the
mirrored `.env` file is modelled as a single association list, since
`store_in_env` keeps both in lockstep.
-/

namespace PlanSan

/-! ## Character helpers (Python ASCII semantics) -/

/-- Python `\s` on ASCII text: space, tab, newline, carriage return,
vertical tab, form feed. -/
def isPySpace (c : Char) : Bool :=
  c = ' ' || c = '\t' || c = '\n' || c = '\r' || c = '\x0b' || c = '\x0c'

/-- Python `\w` on ASCII text: letters, digits and underscore. -/
def isWordChar (c : Char) : Bool :=
  (97 ≤ c.toNat && c.toNat ≤ 122) || (65 ≤ c.toNat && c.toNat ≤ 90) ||
    (48 ≤ c.toNat && c.toNat ≤ 57) || (c.toNat = 95)

/-- Python `str.lower` on an ASCII character. -/
def lowerChar (c : Char) : Char :=
  if 65 ≤ c.toNat ∧ c.toNat ≤ 90 then Char.ofNat (c.toNat + 32) else c

/-- Python `str.upper` on an ASCII character. -/
def upperChar (c : Char) : Char :=
  if 97 ≤ c.toNat ∧ c.toNat ≤ 122 then Char.ofNat (c.toNat - 32) else c

def isDigitChar (c : Char) : Bool := 48 ≤ c.toNat && c.toNat ≤ 57

/-- The apostrophe character (used by the `['\"]?` regex pieces). -/
def squoteC : Char := Char.ofNat 39

def dquoteC : Char := Char.ofNat 34

/-- Opening curly brace. -/
def lbraceC : Char := Char.ofNat 123

/-- Closing curly brace. -/
def rbraceC : Char := Char.ofNat 125

def dollarC : Char := '$'

/-! ## List-of-characters utilities -/

def toLowerL (l : List Char) : List Char := l.map lowerChar

def toUpperL (l : List Char) : List Char := l.map upperChar

/-- Case-sensitive prefix test. -/
def isPreL : List Char → List Char → Bool
  | [], _ => true
  | _ :: _, [] => false
  | a :: as, b :: bs => a = b && isPreL as bs

/-- Case-sensitive substring test (Python `needle in hay`). -/
def isSubL (n : List Char) : List Char → Bool
  | [] => isPreL n []
  | c :: t => isPreL n (c :: t) || isSubL n t

/-- Case-insensitive prefix strip: `stripCI k s` consumes characters of
`s` that lower-case to `k` (with `k` given in lower case) and returns the
remainder. -/
def stripCI : List Char → List Char → Option (List Char)
  | [], s => some s
  | _ :: _, [] => none
  | a :: as, b :: bs => if lowerChar b = a then stripCI as bs else none

/-- `re` word boundary on the right of a word character: the next
character must be absent or not a word character. -/
def bOk : List Char → Bool
  | [] => true
  | c :: _ => !isWordChar c

/-! ## The URL regex `https?://\S+` -/

/-- Greedy run of non-whitespace characters: returns the run and the
remainder. -/
def munchNS : List Char → List Char × List Char
  | [] => ([], [])
  | c :: t =>
    if isPySpace c then ([], c :: t)
    else ((munchNS t).1.cons c, (munchNS t).2)

/-- Match `https?://\S+` at the head of the list, returning the matched
text and the remainder. -/
def matchUrl (s : List Char) : Option (List Char × List Char) :=
  match s with
  | 'h' :: 't' :: 't' :: 'p' :: 's' :: ':' :: '/' :: '/' :: rest =>
    match munchNS rest with
    | ([], _) => none
    | (a, b) => some ('h' :: 't' :: 't' :: 'p' :: 's' :: ':' :: '/' :: '/' :: a, b)
  | 'h' :: 't' :: 't' :: 'p' :: ':' :: '/' :: '/' :: rest =>
    match munchNS rest with
    | ([], _) => none
    | (a, b) => some ('h' :: 't' :: 't' :: 'p' :: ':' :: '/' :: '/' :: a, b)
  | _ => none

theorem munchNS_snd_len (t : List Char) : (munchNS t).2.length ≤ t.length := by
  induction t with
  | nil => simp [munchNS]
  | cons c t ih =>
    simp only [munchNS]
    split
    · simp
    · simpa using Nat.le_succ_of_le ih

theorem munchNS_len2 {t a b : List Char} (h : munchNS t = (a, b)) :
    b.length ≤ t.length := by
  have h2 := munchNS_snd_len t
  rw [h] at h2
  exact h2

theorem matchUrl_rest_len {s u r : List Char} (h : matchUrl s = some (u, r)) :
    r.length < s.length := by
  unfold matchUrl at h
  split at h
  · next rest =>
    split at h
    · exact absurd h (by simp)
    · next a b hab =>
      simp only [Option.some.injEq, Prod.mk.injEq] at h
      obtain ⟨h1, h2⟩ := h
      subst h2
      have := munchNS_len2 hab
      simp only [List.length_cons]
      omega
  · next rest =>
    split at h
    · exact absurd h (by simp)
    · next a b hab =>
      simp only [Option.some.injEq, Prod.mk.injEq] at h
      obtain ⟨h1, h2⟩ := h
      subst h2
      have := munchNS_len2 hab
      simp only [List.length_cons]
      omega
  · exact absurd h (by simp)

/-- The replacement marker used by `remove_urls`. -/
def websiteMark : List Char := "<website>".data

/-- `remove_urls` on a single string: `re.sub(r"https?://\S+", "<website>", s)`. -/
def removeStr (s : List Char) : List Char :=
  match hm : matchUrl s with
  | some (_, r) => websiteMark ++ removeStr r
  | none =>
    match s with
    | [] => []
    | c :: t => c :: removeStr t
termination_by s.length
decreasing_by
  · exact matchUrl_rest_len hm
  · simp

/-- True when no position of the string starts a `https?://\S+` match. -/
def noUrlB : List Char → Bool
  | [] => true
  | c :: t => (matchUrl (c :: t)).isNone && noUrlB t

/-! ## `replace_urls_with_service` -/

/-- The service map of `replace_urls_with_service`, in Python dict
(insertion) order. -/
def serviceRules : List (List Char × List Char) :=
  [("instagram".data, "Instagram".data),
   ("facebook".data, "Facebook".data),
   ("youtube".data, "YouTube".data),
   ("twitter".data, "Twitter".data),
   ("gmail".data, "Gmail".data),
   ("linkedin".data, "LinkedIn".data),
   ("tiktok".data, "TikTok".data)]

/-- `url_to_service`: lower-case the matched URL and return the first
service whose domain occurs in it, else the bare marker. -/
def serviceOfUrl (url : List Char) : List Char :=
  let u := toLowerL url
  match serviceRules.find? (fun kv => isSubL kv.1 u) with
  | some kv => kv.2
  | none => websiteMark

/-- The first phase of `replace_urls_with_service`:
`re.sub(r"https?://\S+", url_to_service, s)`. -/
def urlPass (s : List Char) : List Char :=
  match hm : matchUrl s with
  | some (u, r) => serviceOfUrl u ++ urlPass r
  | none =>
    match s with
    | [] => []
    | c :: t => c :: urlPass t
termination_by s.length
decreasing_by
  · exact matchUrl_rest_len hm
  · simp

/-- Condition for `re.compile(rf"\b{key}\b", re.IGNORECASE)` to match at
the current position: the previous character (tracked by `b`) is not a
word character, the key matches case-insensitively, and a right word
boundary follows. -/
def wMatch (k : List Char) (b : Bool) (s : List Char) : Bool :=
  !b && (match stripCI k s with
         | some r => bOk r
         | none => false)

/-- One `pattern.sub(name, s)` pass for `\b{key}\b` (case-insensitive).
`b` records whether the previous character was a word character. -/
def subAux (k n : List Char) (b : Bool) (s : List Char) : List Char :=
  match s with
  | [] => []
  | c :: t =>
    if wMatch k b (c :: t) then n ++ subAux k n true (t.drop (k.length - 1))
    else c :: subAux k n (isWordChar c) t
termination_by s.length
decreasing_by
  · simp only [List.length_drop, List.length_cons]
    omega
  · simp

/-- A whole-string word-bounded substitution starts at a boundary. -/
def subWord (k n : List Char) (s : List Char) : List Char := subAux k n false s

/-- Apply the word substitutions of all services in dict order. -/
def applySubs : List (List Char × List Char) → List Char → List Char
  | [], s => s
  | r :: rs, s => applySubs rs (subWord r.1 r.2 s)

/-- `replace_urls_with_service` on a single string: first the URL pass,
then the per-service word substitutions. -/
def replaceStr (s : List Char) : List Char := applySubs serviceRules (urlPass s)

/-! ## String-level wrappers -/

def remS (s : String) : String := ⟨removeStr s.data⟩

def replS (s : String) : String := ⟨replaceStr s.data⟩

def pyLowerS (s : String) : String := ⟨toLowerL s.data⟩

def pyUpperS (s : String) : String := ⟨toUpperL s.data⟩

/-- Python `needle in hay`. -/
def inS (needle hay : String) : Bool := isSubL needle.data hay.data

/-! ## The plan data model -/

/-- One step of a task plan.  `none` models an absent key of the Python
step dict (the planner's data model never stores non-string values in
these fields). -/
structure Step where
  action : Option String
  target : Option String
  value : Option String
deriving DecidableEq, Repr

/-- A task plan: the `task` field and the `steps` list. -/
structure Plan where
  task : Option String
  steps : List Step
deriving DecidableEq, Repr

/-- `remove_urls` recursively applied to the plan's string fields. -/
def remP (p : Plan) : Plan :=
  { task := p.task.map remS,
    steps := p.steps.map fun st =>
      { action := st.action.map remS, target := st.target.map remS,
        value := st.value.map remS } }

/-- `replace_urls_with_service` recursively applied to the plan. -/
def replP (p : Plan) : Plan :=
  { task := p.task.map replS,
    steps := p.steps.map fun st =>
      { action := st.action.map replS, target := st.target.map replS,
        value := st.value.map replS } }

/-! ## The secret store (`store_in_env` / `os.environ`) -/

/-- The process environment together with the mirrored `.env` file,
modelled as one association list (`store_in_env` keeps them in lockstep:
it rewrites the matching `KEY=` line or appends one, and then sets
`os.environ[key]`). -/
abbrev Env := List (String × String)

def envGet (env : Env) (k : String) : Option String :=
  match env.find? (fun kv => kv.1 = k) with
  | some kv => some kv.2
  | none => none

/-- The update performed when the `os.environ[key] = value` assignment
of `store_in_env` succeeds: replace the first entry with the given key,
else append. -/
def envSet (env : Env) (k v : String) : Env :=
  match env with
  | [] => [(k, v)]
  | kv :: rest => if kv.1 = k then (k, v) :: rest else kv :: envSet rest k v

/-- `store_in_env(key, value)`: rewrite the `KEY=` line of the `.env`
mirror, then assign `os.environ[key] = value`.  CPython rejects an empty
name (`setenv` fails with EINVAL, raising OSError), a name containing
`=` and an embedded NUL in name or value (ValueError), so those pairs
never reach the environment that `resolve_secret` reads. -/
def store_in_env (key value : String) (env : Env) : Option Env :=
  if key = "" ∨ '=' ∈ key.data ∨ '\x00' ∈ key.data ∨ '\x00' ∈ value.data then none
  else some (envSet env key value)

/-- `os.getenv(key, "")`. -/
def osGetenvD (env : Env) (k : String) : String := (envGet env k).getD ""

/-! ## Placeholder recognition

`resolve_secret` uses `re.match(r"^\$\{(.+?)\}$", value)` and
`handle_login_credentials` uses `re.match(r"^\$\{.+\}$", value)`; both
accept exactly the same strings (the greedy/lazy difference only moves
the captured group).  `.` does not match a newline, and the `$` anchor
also accepts a single trailing newline. -/

/-- Whether the rest of the string may follow the closing brace under the
`$` anchor: nothing, or one newline. -/
def phClose (l : List Char) : Bool := l = [] || l = ['\n']

/-- Lazy scan for the group of `^\$\{(.+?)\}$` after the opening brace:
the first closing brace whose tail satisfies the anchor wins; `seen`
records whether at least one group character was consumed. -/
def phBody (seen : Bool) (acc : List Char) : List Char → Option (List Char)
  | [] => none
  | c :: t =>
    if c = rbraceC && seen && phClose t then some acc.reverse
    else if c = '\n' then none
    else phBody true (c :: acc) t

/-- `re.match(r"^\$\{(.+?)\}$", v)`, returning the captured key. -/
def phExtract (v : List Char) : Option (List Char) :=
  match v with
  | c1 :: c2 :: t =>
    if c1 = dollarC && c2 = lbraceC then phBody false [] t else none
  | _ => none

/-- `re.match(r"^\$\{.+\}$", v)` as a Boolean (same language as
`phExtract`). -/
def isPlaceholder (v : String) : Bool := (phExtract v.data).isSome

/-- `resolve_secret`: a placeholder resolves through the environment
(default empty string); anything else is returned unchanged. -/
def resolve_secret (v : String) (env : Env) : String :=
  match phExtract v.data with
  | some k => osGetenvD env ⟨k⟩
  | none => v

/-! ## The credential extractor

`extract_credentials_from_instruction` uses four `re.findall` scans; each
is transcribed as a leftmost scanner that, after a match, resumes right
after the matched text.  The scanners take fuel (the length of the
input) so that they are structurally total. -/

/-- Characters allowed in the username token `[^\s,'\"]+`. -/
def tokenChar (c : Char) : Bool :=
  !(isPySpace c || c = ',' || c = squoteC || c = dquoteC)

def isQuoteC (c : Char) : Bool := c = squoteC || c = dquoteC

/-- Try one username marker (already lower-case) at the current position:
marker (case-insensitive), `\s+`, optional quote, token `[^\s,'\"]+`,
optional quote.  Returns the captured token and the remainder after the
match. -/
def tryUserMarker (m : List Char) (s : List Char) : Option (List Char × List Char) :=
  match stripCI m s with
  | none => none
  | some r1 =>
    match r1 with
    | [] => none
    | c :: _ =>
      if !isPySpace c then none
      else
        let r2 := r1.dropWhile isPySpace
        let r3 := match r2 with
          | q :: t => if isQuoteC q then t else r2
          | [] => r2
        let tok := r3.takeWhile tokenChar
        if tok = [] then none
        else
          let r4 := r3.drop tok.length
          let r5 := match r4 with
            | q :: t => if isQuoteC q then t else r4
            | [] => r4
          some (tok, r5)

/-- `(?:username|user|login as)` alternatives in order, with fallback. -/
def tryUserAt (s : List Char) : Option (List Char × List Char) :=
  (tryUserMarker "username".data s).orElse fun _ =>
    (tryUserMarker "user".data s).orElse fun _ =>
      tryUserMarker "login as".data s

/-- `re.findall(r"(?:username|user|login as)\s+['\"]?([^\s,'\"]+)['\"]?", instr, re.IGNORECASE)`. -/
def userFindAux : Nat → List Char → List (List Char)
  | 0, _ => []
  | _, [] => []
  | fuel + 1, c :: t =>
    match tryUserAt (c :: t) with
    | some (cap, rest) => cap :: userFindAux fuel rest
    | none => userFindAux fuel t

def userFindAll (s : List Char) : List (List Char) := userFindAux s.length s

/-- `[\w\.-]` character class. -/
def emailClassChar (c : Char) : Bool := isWordChar c || c = '.' || c = '-'

/-- Backtracking tail of the email regex after `@`: within the maximal
`[\w\.-]` run, pick the largest split `A "." B` with `A` nonempty and `B`
a nonempty greedy `\w+` run; later dots are preferred. -/
def emailTailAux : List Char → Option (List Char × List Char)
  | [] => none
  | c :: t =>
    match emailTailAux t with
    | some (cons, rest) => some (c :: cons, rest)
    | none =>
      if c = '.' then
        let b := t.takeWhile isWordChar
        if b = [] then none else some ('.' :: b, t.drop b.length)
      else none

/-- Try `[\w\.-]+@[\w\.-]+\.\w+` at the current position, returning the
whole matched text and the remainder. -/
def tryEmailAt (s : List Char) : Option (List Char × List Char) :=
  let loc := s.takeWhile emailClassChar
  if loc = [] then none
  else
    match s.drop loc.length with
    | '@' :: r =>
      let run := r.takeWhile emailClassChar
      match run with
      | [] => none
      | c0 :: t0 =>
        match emailTailAux t0 with
        | some (cons, rest) =>
          some (loc ++ '@' :: c0 :: cons, rest ++ r.drop run.length)
        | none => none
    | _ => none

def emailFindAux : Nat → List Char → List (List Char)
  | 0, _ => []
  | _, [] => []
  | fuel + 1, c :: t =>
    match tryEmailAt (c :: t) with
    | some (cap, rest) => cap :: emailFindAux fuel rest
    | none => emailFindAux fuel t

def emailFindAll (s : List Char) : List (List Char) := emailFindAux s.length s

/-- `[6-9]\d{9}`: a mobile digit block. -/
def tryPhoneCore (s : List Char) : Option (List Char × List Char) :=
  match s with
  | c :: t =>
    if 54 ≤ c.toNat && c.toNat ≤ 57 then
      let ds := t.takeWhile isDigitChar
      if 9 ≤ ds.length then some (c :: ds.take 9, t.drop 9) else none
    else none
  | [] => none

/-- `(?:\+91|0)?[6-9]\d{9}` at the current position. -/
def tryPhoneAt (s : List Char) : Option (List Char × List Char) :=
  (match s with
   | '+' :: '9' :: '1' :: r =>
     (tryPhoneCore r).map fun (p : List Char × List Char) =>
       ('+' :: '9' :: '1' :: p.1, p.2)
   | _ => none).orElse fun _ =>
    (match s with
     | '0' :: r =>
       (tryPhoneCore r).map fun (p : List Char × List Char) => ('0' :: p.1, p.2)
     | _ => none).orElse fun _ => tryPhoneCore s

def phoneFindAux : Nat → List Char → List (List Char)
  | 0, _ => []
  | _, [] => []
  | fuel + 1, c :: t =>
    match tryPhoneAt (c :: t) with
    | some (cap, rest) => cap :: phoneFindAux fuel rest
    | none => phoneFindAux fuel t

def phoneFindAll (s : List Char) : List (List Char) := phoneFindAux s.length s

/-! ## The password pattern

```
(?:password|pass)\b\s*(?:set|to|is|=|:)?\s*['\"]?(.+?)['\"]?
(?=(?:\s*(?:and|,|\busername\b|\buser\b|\bemail\b|\bmail\b|\bphone\b|\bnumber\b)|$))
```
with `re.IGNORECASE`.  The transcription keeps the engine's backtracking
priorities: greedy `\s*` munches (backed off one space at a time), the
optional keyword and the optional quotes tried "consume first", and the
lazy group grown one character at a time, where at each size the
lookahead is evaluated (the group's `.` never crosses a newline).  The
lookahead needs the character before the current position to decide the
`\b` of the keyword alternatives; it is threaded as `prev`. -/

/-- `$` (no `re.MULTILINE`): end of string, or just before a final
newline. -/
def endOk (l : List Char) : Bool := l = [] || l = ['\n']

def laKws : List (List Char) :=
  ["username".data, "user".data, "email".data, "mail".data,
   "phone".data, "number".data]

/-- The lookahead
`(?=(?:\s*(?:and|,|\busername\b|\buser\b|\bemail\b|\bmail\b|\bphone\b|\bnumber\b)|$))`
evaluated at a position whose previous character is `prev`.  Inside it
only the full `\s*` munch can lead anywhere, since every alternative
starts with a non-space character. -/
def laOk (prev : Char) (l : List Char) : Bool :=
  endOk l ||
  (let l2 := l.dropWhile isPySpace
   let prev2 := if l2.length = l.length then prev else ' '
   (stripCI "and".data l2).isSome ||
   (match l2 with | c :: _ => c = ',' | [] => false) ||
   (!isWordChar prev2 &&
     laKws.any fun kw =>
       match stripCI kw l2 with
       | some r => bOk r
       | none => false))

/-- Grow the lazy group one character at a time; at each size try the
trailing quote first and then the bare position, checking the lookahead. -/
def lazyCap (acc : List Char) : List Char → Option (List Char × List Char)
  | [] => none
  | c :: t =>
    if c = '\n' then none
    else
      let acc2 := c :: acc
      match t with
      | q :: t2 =>
        if isQuoteC q && laOk q t2 then some (acc2.reverse, t2)
        else if laOk c t then some (acc2.reverse, t)
        else lazyCap acc2 t
      | [] =>
        if laOk c t then some (acc2.reverse, t) else lazyCap acc2 t

/-- After the two `\s*`/keyword stages: optional opening quote, then the
lazy group. -/
def pwdCap (l : List Char) : Option (List Char × List Char) :=
  (match l with
   | q :: t => if isQuoteC q then lazyCap [] t else none
   | [] => none).orElse fun _ => lazyCap [] l

/-- Greedy `\s*` with one-space-at-a-time back-off around a continuation. -/
def spacesDown (f : List Char → Option (List Char × List Char)) :
    List Char → Option (List Char × List Char)
  | [] => f []
  | c :: t =>
    if isPySpace c then (spacesDown f t).orElse fun _ => f (c :: t)
    else f (c :: t)

def pwdKws : List (List Char) := ["set".data, "to".data, "is".data, "=".data, ":".data]

/-- Body after the marker and its `\b`:
`\s*(?:set|to|is|=|:)?\s*['\"]?(.+?)['\"]?(?=...)`. -/
def pwdBody (l : List Char) : Option (List Char × List Char) :=
  spacesDown
    (fun l1 =>
      (pwdKws.firstM fun kw =>
        match stripCI kw l1 with
        | some r => spacesDown pwdCap r
        | none => none).orElse fun _ => spacesDown pwdCap l1)
    l

/-- `(?:password|pass)\b` then the body, with marker fallback. -/
def tryPwdAt (s : List Char) : Option (List Char × List Char) :=
  (match stripCI "password".data s with
   | some r => if bOk r then pwdBody r else none
   | none => none).orElse fun _ =>
    match stripCI "pass".data s with
    | some r => if bOk r then pwdBody r else none
    | none => none

def pwdFindAux : Nat → List Char → List (List Char)
  | 0, _ => []
  | _, [] => []
  | fuel + 1, c :: t =>
    match tryPwdAt (c :: t) with
    | some (cap, rest) => cap :: pwdFindAux fuel rest
    | none => pwdFindAux fuel t

def pwdFindAll (s : List Char) : List (List Char) := pwdFindAux s.length s

/-! ## `extract_credentials_from_instruction` -/

/-- Python `str.strip()` (ASCII whitespace). -/
def pyStripL (l : List Char) : List Char :=
  ((l.dropWhile isPySpace).reverse.dropWhile isPySpace).reverse

def pyStripS (s : String) : String := ⟨pyStripL s.data⟩

/-- Python `str.rstrip(".;")`. -/
def rstripDotSemi (s : String) : String :=
  ⟨(s.data.reverse.dropWhile fun c => c = '.' || c = ';').reverse⟩

/-- The false-positive filler set of the extractor. -/
def pwdFillers : List String := ["to", "and", "was", "is", "set", ""]

/-- The result record of the credential extractor. -/
structure Creds where
  usernames : List String
  emails : List String
  phones : List String
  password : Option String
deriving DecidableEq, Repr

/-- The final password selection: last match wins, filler candidates are
discarded, and trailing `.`/`;` are stripped. -/
def pwdFromMatches (ms : List String) : Option String :=
  match ms.getLast? with
  | none => none
  | some m =>
    let candidate := pyStripS m
    if pwdFillers.contains (pyLowerS candidate) then none
    else some (rstripDotSemi candidate)

def extract_credentials_from_instruction (instr : String) : Creds :=
  { usernames := (userFindAll instr.data).map fun l => ⟨l⟩,
    emails := (emailFindAll instr.data).map fun l => ⟨l⟩,
    phones := (phoneFindAll instr.data).map fun l => ⟨l⟩,
    password := pwdFromMatches ((pwdFindAll instr.data).map fun l => ⟨l⟩) }

/-! ## `detect_service_from_text` -/

def serviceNames : List (List Char) :=
  ["instagram".data, "facebook".data, "youtube".data, "twitter".data,
   "gmail".data, "linkedin".data, "tiktok".data]

/-- Leftmost case-insensitive occurrence of one of the service names
(`re.search(r"(instagram|...|tiktok)", text, re.IGNORECASE)`), returning
the matched slice of the input. -/
def findService : List Char → Option (List Char)
  | [] => none
  | c :: t =>
    match serviceNames.firstM fun nm =>
      if (stripCI nm (c :: t)).isSome then some ((c :: t).take nm.length)
      else none with
    | some m => some m
    | none => findService t

/-- `detect_service_from_text(text, fallback)`: the matched service
upper-cased, else the fallback upper-cased (also for empty text). -/
def detect_service_from_text (text : String) (fallback : String) : String :=
  if text = "" then pyUpperS fallback
  else
    match findService text.data with
    | some m => pyUpperS ⟨m⟩
    | none => pyUpperS fallback

/-! ## `handle_login_credentials` -/

/-- Build a `${KEY}` string. -/
def mkPlaceholder (key : String) : String :=
  ⟨dollarC :: lbraceC :: key.data ++ [rbraceC]⟩

/-- Word-bounded case-sensitive occurrence search used for
`re.search(r"\bword\b", s)`; `b` records whether the previous character
was a word character (the keywords are all lower-case letters). -/
def hasWordFrom (w : List Char) (b : Bool) : List Char → Bool
  | [] => false
  | c :: t =>
    (!b && (match stripCI w (c :: t) with
            | some r => bOk r
            | none => false)) || hasWordFrom w (isWordChar c) t

/-- Python `re.search(r"\buser\b", target)` (the target is already lower
case, so the case-insensitive `stripCI` agrees with the case-sensitive
regex). -/
def hasWordUser (s : List Char) : Bool := hasWordFrom "user".data false s

/-- Python `re.search(r"\b(pass|pwd)\b", target)`. -/
def hasWordPassPwd (s : List Char) : Bool :=
  hasWordFrom "pass".data false s || hasWordFrom "pwd".data false s

/-- The secret-precedence expression of the password branch:
`creds["password"] or (current_value if current_value and not re.match(r"^\$\{.+\}$", current_value) else getpass.getpass(...).strip())`
(`or` treats `None` and the empty string as absent). -/
def realSecret (creds : Creds) (current : String) (prompted : String) : String :=
  match creds.password with
  | some p =>
    if p ≠ "" then p
    else if current ≠ "" && !isPlaceholder current then current
    else prompted
  | none =>
    if current ≠ "" && !isPlaceholder current then current
    else prompted

/-- One step of `handle_login_credentials`'s loop.  `prompt` models the
`getpass.getpass(...)` interaction: the raw line typed for a given
service (the code strips it).  Returns the updated step and environment. -/
def processStep (creds : Creds) (taskName : String) (prompt : String → String)
    (env : Env) (st : Step) : Step × Env :=
  if st.action ≠ some "type" then (st, env)
  else
    let target := pyLowerS (st.target.getD "")
    let current := st.value.getD ""
    let service := detect_service_from_text target taskName
    if inS "username" target || hasWordUser target.data then
      let v := match creds.usernames with
        | u :: _ => u
        | [] => current
      if v ≠ "" then ({ st with value := some v }, env) else (st, env)
    else if inS "mail" target || inS "email" target then
      let v := match creds.emails with
        | e :: _ => e
        | [] => current
      if v ≠ "" then ({ st with value := some v }, env) else (st, env)
    else if inS "phone" target || inS "number" target then
      let v := match creds.phones with
        | p :: _ => p
        | [] => current
      if v ≠ "" then ({ st with value := some v }, env) else (st, env)
    else if inS "password" target || hasWordPassPwd target.data then
      let envKey := "PASSWORD_" ++ service
      let realValue := realSecret creds current (pyStripS (prompt service))
      if realValue ≠ "" then
        ({ st with value := some (mkPlaceholder envKey) }, envSet env envKey realValue)
      else (st, env)
    else (st, env)

/-- The loop of `handle_login_credentials`, threading the environment. -/
def processSteps (creds : Creds) (taskName : String) (prompt : String → String)
    (env : Env) : List Step → List Step × Env
  | [] => ([], env)
  | st :: rest =>
    let r1 := processStep creds taskName prompt env st
    let r2 := processSteps creds taskName prompt r1.2 rest
    (r1.1 :: r2.1, r2.2)

/-- `handle_login_credentials(plan_json, instruction)`: extract the
credentials, then rewrite the `type` steps; the plan's other fields are
returned as they were. -/
def handle_login_credentials (p : Plan) (instr : String)
    (prompt : String → String) (env : Env) : Plan × Env :=
  let creds := extract_credentials_from_instruction instr
  let taskName := p.task.getD "GENERAL"
  let r := processSteps creds taskName prompt env p.steps
  ({ p with steps := r.1 }, r.2)

/-- The plan sanitizer pipeline of `generate_task_plan` /
`modify_task_plan`: URL redaction, service canonicalization, credential
substitution. -/
def pipeline (instr : String) (prompt : String → String) (env : Env)
    (p : Plan) : Plan × Env :=
  handle_login_credentials (replP (remP p)) instr prompt env

/-! ## The stepwise renderer `json_to_stepwise_text` -/

/-- Python `str.capitalize()` on ASCII text: first character upper-cased,
the rest lower-cased. -/
def pyCapitalize (s : String) : String :=
  match s.data with
  | [] => ""
  | c :: t => ⟨upperChar c :: toLowerL t⟩

/-- The masked display `"*" * 8`. -/
def maskStars : String := "********"

/-- One line of `json_to_stepwise_text` (`i` is the zero-based position;
the rendered number is `i + 1`).  The display value is the mask when the
value is a string and the (defaulted) target contains "password", else
`resolve_secret(value)`; a falsy display (absent value or empty resolved
string) appends nothing. -/
def renderStep (env : Env) (i : Nat) (st : Step) : String :=
  let action := st.action.getD "<action>"
  let target := st.target.getD "<target>"
  let display : Option String :=
    match st.value with
    | some v =>
      some (if inS "password" (pyLowerS target) then maskStars
            else resolve_secret v env)
    | none => none
  let line := "Step " ++ toString (i + 1) ++ ": " ++ pyCapitalize action ++
    " -> " ++ target
  match display with
  | some d => if d ≠ "" then line ++ " | Value: " ++ d else line
  | none => line

def noStepsMsg : String := "⚠️ No steps found in the task plan."

/-- `json_to_stepwise_text(plan_json)` (it reads `os.environ` through
`resolve_secret`, hence the environment argument). -/
def json_to_stepwise_text (p : Plan) (env : Env) : String :=
  if p.steps = [] then noStepsMsg
  else
    String.intercalate "\n"
      ((p.steps.enum.map fun pr => renderStep env pr.1 pr.2))

/-! ## Task naming and the task plan store -/

/-- `plan.get("task", "unnamed_task").replace(" ", "_").lower()`:
underscore-for-space first, then lower-casing (a single-character
`str.replace` is a character map). -/
def slugify (s : String) : String :=
  pyLowerS ⟨s.data.map fun c => if c = ' ' then '_' else c⟩

/-- The storage key of `generate_task_plan`:
`existing_task_name or plan.get("task", "unnamed_task").replace(" ", "_").lower()`
(`or` treats `None` and the empty string as absent). -/
def chooseTaskKey (existing : Option String) (proposed : String) : String :=
  match existing with
  | none => slugify proposed
  | some n => if n = "" then slugify proposed else n

/-- The tail of `generate_task_plan` after sanitization: pick the key,
force the plan's `task` field to it, and use it as the file name. -/
def generateFinalize (p : Plan) (existing : Option String) : String × Plan :=
  let key := chooseTaskKey existing (p.task.getD "unnamed_task")
  (key, { p with task := some key })

/-- The tail of `modify_task_plan`: the caller's task name is forced into
the updated plan and reused as the file name. -/
def modifyFinalize (taskName : String) (updated : Plan) : String × Plan :=
  (taskName, { updated with task := some taskName })

/-- The `tasks/` directory as a map from task name to plan document
(`open(path, "w")` + `json.dump` overwrites the whole file). -/
abbrev TaskStore := List (String × Plan)

def storeGet (st : TaskStore) (k : String) : Option Plan :=
  match st.find? (fun kv => kv.1 = k) with
  | some kv => some kv.2
  | none => none

def storePut (st : TaskStore) (k : String) (p : Plan) : TaskStore :=
  match st with
  | [] => [(k, p)]
  | kv :: rest => if kv.1 = k then (k, p) :: rest else kv :: storePut rest k p

/-! ## The response normalizer `clean_json_response`

`llama_action_planner.clean_json_response` first drops the markdown
fences, strips, extracts the first-to-last-brace candidate and feeds it
to `json.loads`; parse failure falls back to a raw-text wrapper.  The
JSON values are modelled with number lexemes kept verbatim. -/

inductive JVal where
  | null : JVal
  | bool : Bool → JVal
  | num : String → JVal
  | str : String → JVal
  | arr : List JVal → JVal
  | obj : List (String × JVal) → JVal
deriving BEq, Repr

/-- `re.sub(r"```(?:json)?", "", raw)`: each occurrence of three
backticks, optionally followed by `json` (greedily), is deleted. -/
def stripFences : List Char → List Char
  | '`' :: '`' :: '`' :: 'j' :: 's' :: 'o' :: 'n' :: t => stripFences t
  | '`' :: '`' :: '`' :: t => stripFences t
  | c :: t => c :: stripFences t
  | [] => []

/-- For `re.search(r"\{.*\}", s, re.DOTALL)`: the prefix of `l` up to and
including its last closing brace, when `l` has one after its head. -/
def takeToLastClose (l : List Char) : Option (List Char) :=
  match l.reverse.dropWhile (fun c => c ≠ rbraceC) with
  | [] => none
  | r => some r.reverse

/-- `re.search(r"\{.*\}", s, re.DOTALL)`: from the first opening brace
that has a closing brace after it, to the last closing brace of the
string. -/
def findCandidate : List Char → Option (List Char)
  | [] => none
  | c :: t =>
    if c = lbraceC then
      match takeToLastClose (c :: t) with
      | some cand => if cand.length ≥ 2 then some cand else findCandidate t
      | none => findCandidate t
    else findCandidate t

/-- JSON whitespace. -/
def isJsonWs (c : Char) : Bool := c = ' ' || c = '\t' || c = '\n' || c = '\r'

def skipWs (l : List Char) : List Char := l.dropWhile isJsonWs

def hexVal (c : Char) : Option Nat :=
  if 48 ≤ c.toNat ∧ c.toNat ≤ 57 then some (c.toNat - 48)
  else if 97 ≤ c.toNat ∧ c.toNat ≤ 102 then some (c.toNat - 87)
  else if 65 ≤ c.toNat ∧ c.toNat ≤ 70 then some (c.toNat - 55)
  else none

/-- Parse the body of a JSON string after the opening quote.  Strict mode:
raw control characters are rejected; `\uXXXX` escapes are decoded (lone
surrogates, which Python would keep, have no `Char` representation and
are rejected — no claim depends on them). -/
def parseJStr (acc : List Char) : List Char → Option (String × List Char)
  | [] => none
  | c :: t =>
    if c = dquoteC then some (⟨acc.reverse⟩, t)
    else if c = '\\' then
      match t with
      | e :: t2 =>
        if e = dquoteC then parseJStr (dquoteC :: acc) t2
        else if e = '\\' then parseJStr ('\\' :: acc) t2
        else if e = '/' then parseJStr ('/' :: acc) t2
        else if e = 'b' then parseJStr ('\x08' :: acc) t2
        else if e = 'f' then parseJStr ('\x0c' :: acc) t2
        else if e = 'n' then parseJStr ('\n' :: acc) t2
        else if e = 'r' then parseJStr ('\r' :: acc) t2
        else if e = 't' then parseJStr ('\t' :: acc) t2
        else if e = 'u' then
          match t2 with
          | h1 :: h2 :: h3 :: h4 :: t3 =>
            match hexVal h1, hexVal h2, hexVal h3, hexVal h4 with
            | some a, some b, some c', some d =>
              let n := ((a * 16 + b) * 16 + c') * 16 + d
              if h : n.isValidChar then parseJStr (Char.ofNatAux n h :: acc) t3
              else none
            | _, _, _, _ => none
          | _ => none
        else none
      | [] => none
    else if c.toNat < 32 then none
    else parseJStr (c :: acc) t

/-- The optional fraction group `(\.\d+)?` (an unusable dot is left in
place, as the scanning regex of `json.loads` does). -/
def jnumFrac : List Char → List Char × List Char
  | '.' :: t2 =>
    let ds := t2.takeWhile isDigitChar
    if ds = [] then ([], '.' :: t2) else ('.' :: ds, t2.drop ds.length)
  | l2 => ([], l2)

/-- The optional exponent group `([eE][-+]?\d+)?`. -/
def jnumExp : List Char → List Char × List Char
  | e :: t3 =>
    if e = 'e' ∨ e = 'E' then
      let (sg, t4) := match t3 with
        | '+' :: t5 => (['+'], t5)
        | '-' :: t5 => (['-'], t5)
        | _ => ([], t3)
      let ds := t4.takeWhile isDigitChar
      if ds = [] then ([], e :: t3) else (e :: (sg ++ ds), t4.drop ds.length)
    else ([], e :: t3)
  | [] => ([], [])

/-- Lexeme of a JSON number, per the `json.loads` scanning regex
`(-?(?:0|[1-9]\d*))(\.\d+)?([eE][-+]?\d+)?` (a leading zero stops the
integer part, so `012` only scans `0` and the leftover then fails in
every surrounding context, as in Python). -/
def parseJNum (l : List Char) : Option (List Char × List Char) :=
  let (sign, l1) := match l with
    | '-' :: t => (['-'], t)
    | _ => ([], l)
  match l1 with
  | [] => none
  | c :: t =>
    if !isDigitChar c then none
    else
      let intDigits := if c = '0' then [] else t.takeWhile isDigitChar
      let intPart := c :: intDigits
      let l2 := t.drop intDigits.length
      let (fracPart, l3) := jnumFrac l2
      let (expPart, l4) := jnumExp l3
      some (sign ++ intPart ++ fracPart ++ expPart, l4)

mutual

/-- One JSON value. -/
def parseJVal (fuel : Nat) (l : List Char) : Option (JVal × List Char) :=
  match fuel with
  | 0 => none
  | fuel + 1 =>
    match skipWs l with
    | 'n' :: 'u' :: 'l' :: 'l' :: t => some (.null, t)
    | 't' :: 'r' :: 'u' :: 'e' :: t => some (.bool true, t)
    | 'f' :: 'a' :: 'l' :: 's' :: 'e' :: t => some (.bool false, t)
    | 'N' :: 'a' :: 'N' :: t => some (.num "NaN", t)
    | 'I' :: 'n' :: 'f' :: 'i' :: 'n' :: 'i' :: 't' :: 'y' :: t =>
      some (.num "Infinity", t)
    | '-' :: 'I' :: 'n' :: 'f' :: 'i' :: 'n' :: 'i' :: 't' :: 'y' :: t =>
      some (.num "-Infinity", t)
    | c :: t =>
      if c = dquoteC then (parseJStr [] t).map fun p => (.str p.1, p.2)
      else if c = lbraceC then
        match skipWs t with
        | c2 :: t2 =>
          if c2 = rbraceC then some (.obj [], t2)
          else parseJObj fuel [] (c2 :: t2)
        | [] => none
      else if c = '[' then
        match skipWs t with
        | ']' :: t2 => some (.arr [], t2)
        | rest => parseJArr fuel [] rest
      else
        (parseJNum (c :: t)).map fun p => (.num ⟨p.1⟩, p.2)
    | [] => none

/-- Members of an object, positioned at the start of a member. -/
def parseJObj (fuel : Nat) (acc : List (String × JVal)) (l : List Char) :
    Option (JVal × List Char) :=
  match fuel with
  | 0 => none
  | fuel + 1 =>
    match skipWs l with
    | c :: t =>
      if c = dquoteC then
        match parseJStr [] t with
        | some (key, t2) =>
          match skipWs t2 with
          | ':' :: t3 =>
            match parseJVal fuel t3 with
            | some (v, t4) =>
              match skipWs t4 with
              | ',' :: t5 => parseJObj fuel ((key, v) :: acc) t5
              | c2 :: t5 =>
                if c2 = rbraceC then some (.obj ((key, v) :: acc).reverse, t5)
                else none
              | [] => none
            | none => none
          | _ => none
        | none => none
      else none
    | [] => none

/-- Elements of an array, positioned at the start of an element. -/
def parseJArr (fuel : Nat) (acc : List JVal) (l : List Char) :
    Option (JVal × List Char) :=
  match fuel with
  | 0 => none
  | fuel + 1 =>
    match parseJVal fuel l with
    | some (v, t) =>
      match skipWs t with
      | ',' :: t2 => parseJArr fuel (v :: acc) t2
      | ']' :: t2 => some (.arr (v :: acc).reverse, t2)
      | _ => none
    | none => none

end

/-- `json.loads`: one value with only whitespace around it. -/
def jsonLoads (l : List Char) : Option JVal :=
  match parseJVal (l.length + 1) l with
  | some (v, rest) => if skipWs rest = [] then some v else none
  | none => none

/-- The fallback object `{"raw_text": text}`. -/
def rawObj (s : String) : JVal := .obj [("raw_text", .str s)]

/-- `clean_json_response(raw_text)` of `llama_action_planner.py`. -/
def clean_json_response (raw : String) : JVal :=
  let textClean := pyStripL (stripFences raw.data)
  match findCandidate textClean with
  | none => rawObj raw
  | some cand =>
    match jsonLoads cand with
    | some v => v
    | none => rawObj ⟨cand⟩

/-! ## The missing-field validator (spec-modelled)

Modelled from the spec: the Missing-Field Validator (spec section 4.6) is
not part of the sources under `src/`; per the spec it keeps, for a task
category, an ordered table of required fields, evaluates a per-field
heuristic over the instruction text and the plan's step text, and returns
the required fields with no satisfying evidence — passenger counts are
detected by a `<number> (passenger|people|member)` pattern. -/

def passengerWords : List (List Char) :=
  ["passenger".data, "people".data, "member".data]

/-- Modelled from the spec: a `<number> (passenger|people|member)`
occurrence — a digit run, optional spaces, then one of the count words. -/
def hasPassengerCount : List Char → Bool
  | [] => false
  | c :: t =>
    (isDigitChar c &&
      (let afterDigits := t.dropWhile isDigitChar
       let afterSpace := afterDigits.dropWhile isPySpace
       passengerWords.any fun w => isPreL w (toLowerL afterSpace))) ||
    hasPassengerCount t

def monthWords : List (List Char) :=
  ["january".data, "february".data, "march".data, "april".data, "may".data,
   "june".data, "july".data, "august".data, "september".data,
   "october".data, "november".data, "december".data]

/-- Modelled from the spec: a date probe — a month name or a numeric
`d/m` or `d-m` shape. -/
def hasDateEvidence (l : List Char) : Bool :=
  (monthWords.any fun w => isSubL w (toLowerL l)) ||
  hasNumericDate l
where
  hasNumericDate : List Char → Bool
    | [] => false
    | c :: t =>
      (isDigitChar c &&
        (match t.dropWhile isDigitChar with
         | sep :: t2 => (sep = '/' || sep = '-') &&
             (match t2 with | d :: _ => isDigitChar d | [] => false)
         | [] => false)) ||
      hasNumericDate t

def seatClassWords : List (List Char) :=
  ["economy".data, "business".data, "first class".data, "premium".data]

def flightTypeWords : List (List Char) :=
  ["round trip".data, "round-trip".data, "one way".data, "one-way".data,
   "return".data]

/-- Modelled from the spec: the searchable text of a validation call —
the instruction together with every step's target and value. -/
def validatorText (instr : String) (p : Plan) : List Char :=
  instr.data ++ (p.steps.flatMap fun st =>
    ' ' :: (st.target.getD "").data ++ ' ' :: (st.value.getD "").data)

/-- Modelled from the spec: the per-field heuristic table for the flight
category. -/
def flightFieldSatisfied (field : String) (txt : List Char) : Bool :=
  if field = "travel_date" then hasDateEvidence txt
  else if field = "number_of_passengers" then hasPassengerCount txt
  else if field = "seat_class" then
    seatClassWords.any fun w => isSubL w (toLowerL txt)
  else if field = "flight_type" then
    flightTypeWords.any fun w => isSubL w (toLowerL txt)
  else false

def flightRequiredFields : List String :=
  ["travel_date", "number_of_passengers", "seat_class", "flight_type"]

/-- Modelled from the spec: the Missing-Field Validator for the flight
category — the ordered required fields with no satisfying evidence in
either the instruction or the plan. -/
def missingFields (instr : String) (p : Plan) : List String :=
  flightRequiredFields.filter fun f =>
    !flightFieldSatisfied f (validatorText instr p)

/-! ## Target classification predicates (the branch conditions of
`handle_login_credentials`, over the lowered target) -/

/-- The password-like test of the last branch:
`"password" in target or re.search(r"\b(pass|pwd)\b", target)`. -/
def passwordLikeTarget (st : Step) : Bool :=
  let tgt := pyLowerS (st.target.getD "")
  inS "password" tgt || hasWordPassPwd tgt.data

/-- The identifier-like tests of the earlier branches (username, email,
phone), which take precedence in the `elif` chain. -/
def identLikeTarget (st : Step) : Bool :=
  let tgt := pyLowerS (st.target.getD "")
  inS "username" tgt || hasWordUser tgt.data || inS "mail" tgt ||
    inS "email" tgt || inS "phone" tgt || inS "number" tgt

/-- The scenario instruction of the spec. -/
def c2instr : String := "Login to instagram with username bob and password Secret123"

/-- Instruction of the C3 counterexample: no password present. -/
def c3instr : String := "do it"

/-- Prompt model of the C3 counterexample: the user types nothing. -/
def c3prompt : String → String := fun _ => ""

/-- Plan of the C3 counterexample: a custom task name containing a
service word, and a password step with a literal value. -/
def c3plan : Plan :=
  { task := some "my instagram",
    steps := [{ action := some "type", target := some "password", value := some "x" }] }

/-- The malformed-output scenario text of the spec (built around the
apostrophe character). -/
def c5scenario : String :=
  "Sure! Here" ++ (⟨[squoteC]⟩ : String) ++ "s your plan: not json"

/-- The letters-only character class (the service keys and names). -/
def isAlphaChar (c : Char) : Bool :=
  (97 ≤ c.toNat && c.toNat ≤ 122) || (65 ≤ c.toNat && c.toNat ≤ 90)

/-- A well-formed substitution rule: the key is the lowering of the
replacement name, non-empty and all letters. -/
def GoodRule (r : List Char × List Char) : Prop :=
  toLowerL r.2 = r.1 ∧ r.1 ≠ [] ∧ ∀ c ∈ r.2, isAlphaChar c = true

/-- Two rules whose keys are prefix-incomparable. -/
def IndepRule (r rp : List Char × List Char) : Prop :=
  isPreL r.1 rp.1 = false ∧ isPreL rp.1 r.1 = false

instance : DecidablePred GoodRule := fun r => by
  unfold GoodRule
  infer_instance

instance : ∀ r rp, Decidable (IndepRule r rp) := fun r rp => by
  unfold IndepRule
  infer_instance

/-- A rule whose name can neither create a URL start nor complete one. -/
def UrlSafeRule (r : List Char × List Char) : Prop :=
  r.2 ≠ [] ∧ r.1 ≠ [] ∧ (∀ c ∈ r.1, isAlphaChar c = true) ∧
    (∀ c ∈ r.2, c ≠ 'h') ∧
    (∀ d ∈ (['t', 'p', 's', ':', '/'] : List Char), r.2.head? ≠ some d)

instance : DecidablePred UrlSafeRule := fun r => by
  unfold UrlSafeRule
  infer_instance

/-- The string-level sanitizer of a single field. -/
def sanL (l : List Char) : List Char := replaceStr (removeStr l)

/-- The shared shape of the username/email/phone branches of
`handle_login_credentials`: first extracted item, else the current value,
written when non-empty. -/
def identBranch (L : List String) (st : Step) (env : Env) : Step × Env :=
  let v := match L with
    | u :: _ => u
    | [] => st.value.getD ""
  if v ≠ "" then ({ st with value := some v }, env) else (st, env)

/-- The password branch of `handle_login_credentials`. -/
def passBranch (creds : Creds) (tn : String) (prompt : String → String)
    (st : Step) (env : Env) : Step × Env :=
  let service := detect_service_from_text (pyLowerS (st.target.getD "")) tn
  let envKey := "PASSWORD_" ++ service
  let realValue := realSecret creds (st.value.getD "") (pyStripS (prompt service))
  if realValue ≠ "" then
    ({ st with value := some (mkPlaceholder envKey) }, envSet env envKey realValue)
  else (st, env)

/-- The per-field sanitizer `replace_urls_with_service ∘ remove_urls`
as a `String` map. -/
def sanS (s : String) : String := replS (remS s)

/-- The sanitizer applied to every string field of a step. -/
def sanStep (st : Step) : Step :=
  { action := st.action.map sanS, target := st.target.map sanS,
    value := st.value.map sanS }

/-- The sanitizer applied to every string field of a plan. -/
def sanPlan (p : Plan) : Plan :=
  { task := p.task.map sanS, steps := p.steps.map sanStep }

/-! # Helper lemmas -/

theorem String.mk_data (s : String) : (⟨s.data⟩ : String) = s := rfl

/-! ## Environment lemmas -/

theorem envGet_envSet_same (env : Env) (k v : String) :
    envGet (envSet env k v) k = some v := by
  induction env with
  | nil => simp [envSet, envGet, List.find?]
  | cons kv rest ih =>
    by_cases h : kv.1 = k
    · simp [envSet, h, envGet, List.find?]
    · simp only [envSet, if_neg h]
      simpa [envGet, List.find?, h] using ih

theorem envGet_envSet_other (env : Env) (k v k' : String) (h : k' ≠ k) :
    envGet (envSet env k v) k' = envGet env k' := by
  have h2 : k ≠ k' := Ne.symm h
  induction env with
  | nil => simp [envSet, envGet, List.find?, h2]
  | cons kv rest ih =>
    by_cases hk : kv.1 = k
    · have hk' : kv.1 ≠ k' := by rw [hk]; exact h2
      simp [envSet, hk, envGet, List.find?, h2, hk']
    · by_cases hk' : kv.1 = k'
      · simp [envSet, if_neg hk, envGet, List.find?, hk', h]
      · simp only [envSet, if_neg hk]
        simpa [envGet, List.find?, hk'] using ih

/-! ## Placeholder round-trip lemmas -/

theorem phClose_append_rbrace (l : List Char) :
    phClose (l ++ [rbraceC]) = false := by
  cases l with
  | nil => decide
  | cons a l' => simp [phClose]

theorem phBody_closes (k : List Char) (hnl : ∀ c ∈ k, c ≠ '\n') (acc : List Char) :
    phBody true acc (k ++ [rbraceC]) = some (acc.reverse ++ k) := by
  induction k generalizing acc with
  | nil => simp [phBody, phClose, rbraceC]
  | cons c k' ih =>
    have hc : c ≠ '\n' := hnl c (by simp)
    have hcl : phClose (k' ++ [rbraceC]) = false := phClose_append_rbrace k'
    have ih2 := ih (fun d hd => hnl d (by simp [hd])) (c :: acc)
    simp only [List.cons_append, phBody, List.append_eq, hcl, Bool.and_false,
      Bool.false_eq_true, if_false, if_neg hc, ih2]
    simp

theorem phExtract_mk (k : List Char) (hk : k ≠ []) (hnl : ∀ c ∈ k, c ≠ '\n') :
    phExtract (dollarC :: lbraceC :: (k ++ [rbraceC])) = some k := by
  cases k with
  | nil => exact absurd rfl hk
  | cons c k' =>
    have hc : c ≠ '\n' := hnl c (by simp)
    have hcl : phClose (k' ++ [rbraceC]) = false := phClose_append_rbrace k'
    have hb := phBody_closes k' (fun d hd => hnl d (by simp [hd])) [c]
    show phBody false [] (c :: k' ++ [rbraceC]) = some (c :: k')
    simp only [List.cons_append, phBody, List.append_eq, hcl, Bool.and_false,
      Bool.false_and, Bool.false_eq_true, if_false, if_neg hc, hb]
    simp

theorem resolve_mkPlaceholder (env : Env) (k : String) (hk : k ≠ "")
    (hnl : ∀ c ∈ k.data, c ≠ '\n') :
    resolve_secret (mkPlaceholder k) env = osGetenvD env k := by
  have hkd : k.data ≠ [] := by
    intro h
    apply hk
    have := congrArg (fun l => (⟨l⟩ : String)) h
    simpa [String.mk_data] using this
  unfold resolve_secret mkPlaceholder
  have : (⟨dollarC :: lbraceC :: k.data ++ [rbraceC]⟩ : String).data =
      dollarC :: lbraceC :: (k.data ++ [rbraceC]) := by simp
  rw [this, phExtract_mk k.data hkd hnl]

/-! # Claim C8: task naming and storage keys -/

theorem storeGet_storePut_same (st : TaskStore) (k : String) (p : Plan) :
    storeGet (storePut st k p) k = some p := by
  induction st with
  | nil => simp [storePut, storeGet, List.find?]
  | cons kv rest ih =>
    by_cases h : kv.1 = k
    · simp [storePut, h, storeGet, List.find?]
    · simp only [storePut, if_neg h]
      simpa [storeGet, List.find?, h] using ih

theorem storeGet_storePut_other (st : TaskStore) (k : String) (p : Plan)
    (k' : String) (h : k' ≠ k) :
    storeGet (storePut st k p) k' = storeGet st k' := by
  have h2 : k ≠ k' := Ne.symm h
  induction st with
  | nil => simp [storePut, storeGet, List.find?, h2]
  | cons kv rest ih =>
    by_cases hk : kv.1 = k
    · have hk' : kv.1 ≠ k' := by rw [hk]; exact h2
      simp [storePut, hk, storeGet, List.find?, h2, hk']
    · by_cases hk' : kv.1 = k'
      · simp [storePut, if_neg hk, storeGet, List.find?, hk', h]
      · simp only [storePut, if_neg hk]
        simpa [storeGet, List.find?, hk'] using ih

theorem storePut_keys_sub (st : TaskStore) (k : String) (p : Plan) (x : String) :
    x ∈ (storePut st k p).map Prod.fst → x ∈ st.map Prod.fst ∨ x = k := by
  induction st with
  | nil =>
    intro hmem
    simp only [storePut, List.map_cons, List.map_nil, List.mem_singleton] at hmem
    exact Or.inr hmem
  | cons kv rest ih =>
    intro hmem
    by_cases hk : kv.1 = k
    · simp only [storePut, if_pos hk, List.map_cons, List.mem_cons] at hmem
      rcases hmem with h1 | h1
      · exact Or.inr h1
      · exact Or.inl (List.mem_cons_of_mem _ h1)
    · simp only [storePut, if_neg hk, List.map_cons, List.mem_cons] at hmem
      rcases hmem with h1 | h1
      · exact Or.inl (by rw [h1]; exact List.mem_cons_self _ _)
      · rcases ih h1 with h2 | h2
        · exact Or.inl (List.mem_cons_of_mem _ h2)
        · exact Or.inr h2

theorem storePut_keys_nodup (st : TaskStore) (k : String) (p : Plan)
    (h : (st.map Prod.fst).Nodup) : ((storePut st k p).map Prod.fst).Nodup := by
  induction st with
  | nil => simp [storePut]
  | cons kv rest ih =>
    by_cases hk : kv.1 = k
    · simpa [storePut, hk] using h
    · simp only [List.map_cons, List.nodup_cons] at h
      simp only [storePut, if_neg hk, List.map_cons, List.nodup_cons]
      refine ⟨?_, ih h.2⟩
      intro hmem
      rcases storePut_keys_sub rest k p kv.1 hmem with h2 | h2
      · exact h.1 h2
      · exact hk h2

/-- C8: after `generate_task_plan` and `modify_task_plan`, the persisted
plan's `task` field equals the storage key (the caller-provided name when
one is given and non-empty, else the slugified generator proposal), and
the store keeps at most one document per key, later writes overwriting
earlier ones. -/
theorem C8_task_field_is_storage_key :
    (∀ (p : Plan) (ex : Option String),
        ((generateFinalize p ex).2).task = some (generateFinalize p ex).1 ∧
        (generateFinalize p ex).1 =
          chooseTaskKey ex (p.task.getD "unnamed_task")) ∧
    (∀ (tn : String) (up : Plan),
        ((modifyFinalize tn up).2).task = some (modifyFinalize tn up).1 ∧
        (modifyFinalize tn up).1 = tn) ∧
    (∀ (st : TaskStore) (k : String) (p : Plan),
        storeGet (storePut st k p) k = some p) ∧
    (∀ (st : TaskStore) (k : String) (p : Plan) (k' : String), k' ≠ k →
        storeGet (storePut st k p) k' = storeGet st k') ∧
    (∀ (st : TaskStore) (k : String) (p : Plan),
        (st.map Prod.fst).Nodup → ((storePut st k p).map Prod.fst).Nodup) := by
  refine ⟨fun p ex => ⟨rfl, rfl⟩, fun tn up => ⟨rfl, rfl⟩,
    storeGet_storePut_same, ?_, storePut_keys_nodup⟩
  intro st k p k' h
  exact storeGet_storePut_other st k p k' h

/-- C8 witness: a concrete create with a generator-proposed name and a
concrete overwrite. -/
theorem C8_task_field_is_storage_key_witness :
    ((generateFinalize ⟨some "My Task", []⟩ none).2).task = some "my_task" ∧
    storeGet (storePut (storePut [] "t" ⟨some "t", []⟩) "t" ⟨some "t2", []⟩) "t" =
      some ⟨some "t2", []⟩ ∧
    storeGet (storePut [("a", ⟨none, []⟩)] "t" ⟨some "t", []⟩) "a" =
      storeGet [("a", (⟨none, []⟩ : Plan))] "a" := by
  refine ⟨?_, ?_, ?_⟩
  · have h := (C8_task_field_is_storage_key.1 ⟨some "My Task", []⟩ none).1
    rw [h]
    rfl
  · exact C8_task_field_is_storage_key.2.2.1 _ "t" _
  · exact C8_task_field_is_storage_key.2.2.2.1 _ "t" _ "a" (by decide)

/-! # Claim C4: secret store round-trip and resolve behaviour -/

/-- C4 counterexample: `store_in_env` accepts the key `"A\nB"` — the
`os.environ` assignment only rejects empty, `=`-bearing or NUL-bearing
names — but the placeholder built from that key can never be resolved
back: `.` in `^\$\{(.+?)\}$` does not match the newline inside the key,
so `resolve_secret` returns the placeholder text itself, not `"v"`. -/
theorem C4_counterexample :
    store_in_env "A\nB" "v" [] = some [("A\nB", "v")] ∧
    resolve_secret (mkPlaceholder "A\nB") [("A\nB", "v")] = mkPlaceholder "A\nB" ∧
    mkPlaceholder "A\nB" ≠ "v" := by
  refine ⟨by decide, by decide, by decide⟩

/-- C4 (amended): for every pair successfully written via
`store_in_env` whose key is newline-free, resolving `${key}` returns the
value exactly (a successful write already forces a non-empty key);
a string that the placeholder pattern does not match resolves to itself;
a placeholder over an unset key resolves to the empty string. -/
theorem C4_store_resolve_roundtrip :
    (∀ (env env2 : Env) (k v : String), store_in_env k v env = some env2 →
        (∀ c ∈ k.data, c ≠ '\n') →
        resolve_secret (mkPlaceholder k) env2 = v) ∧
    (∀ (env : Env) (s : String), phExtract s.data = none →
        resolve_secret s env = s) ∧
    (∀ (env : Env) (k : String), k ≠ "" → (∀ c ∈ k.data, c ≠ '\n') →
        envGet env k = none → resolve_secret (mkPlaceholder k) env = "") := by
  refine ⟨?_, ?_, ?_⟩
  · intro env env2 k v hst hnl
    unfold store_in_env at hst
    split at hst
    · exact absurd hst (by simp)
    · next h =>
      push_neg at h
      injection hst with h2
      rw [← h2, resolve_mkPlaceholder _ k h.1 hnl]
      unfold osGetenvD
      rw [envGet_envSet_same]
      rfl
  · intro env s h
    unfold resolve_secret
    rw [h]
  · intro env k hk hnl hget
    rw [resolve_mkPlaceholder _ k hk hnl]
    unfold osGetenvD
    rw [hget]
    rfl

/-- C4 witness: a concrete write/read round-trip, a non-placeholder
string, and an unset key. -/
theorem C4_store_resolve_roundtrip_witness :
    store_in_env "PASSWORD_INSTAGRAM" "Secret123" [] =
      some [("PASSWORD_INSTAGRAM", "Secret123")] ∧
    resolve_secret (mkPlaceholder "PASSWORD_INSTAGRAM")
        [("PASSWORD_INSTAGRAM", "Secret123")] = "Secret123" ∧
    resolve_secret "plain" [("plain", "x")] = "plain" ∧
    resolve_secret (mkPlaceholder "UNSET") [] = "" := by
  refine ⟨by decide, ?_, ?_, ?_⟩
  · exact C4_store_resolve_roundtrip.1 [] [("PASSWORD_INSTAGRAM", "Secret123")]
      "PASSWORD_INSTAGRAM" "Secret123" (by decide) (by decide)
  · exact C4_store_resolve_roundtrip.2.1 [("plain", "x")] "plain" (by decide)
  · exact C4_store_resolve_roundtrip.2.2 [] "UNSET" (by decide) (by decide) (by decide)

/-! # Claim C9: the passenger-count heuristic (spec-modelled) -/

theorem isPreL_append (w x e : List Char) (h : isPreL w x = true) :
    isPreL w (x ++ e) = true := by
  induction w generalizing x with
  | nil => simp [isPreL]
  | cons a as ih =>
    cases x with
    | nil => exact absurd h (by simp [isPreL])
    | cons b bs =>
      simp only [isPreL, Bool.and_eq_true] at h ⊢
      exact ⟨h.1, ih bs h.2⟩

theorem dropWhile_append_of_ne_nil {p : Char → Bool} (x e : List Char)
    (h : x.dropWhile p ≠ []) :
    (x ++ e).dropWhile p = x.dropWhile p ++ e := by
  induction x with
  | nil => exact absurd rfl h
  | cons b bs ih =>
    by_cases hb : p b
    · rw [List.dropWhile_cons_of_pos hb] at h
      rw [List.cons_append, List.dropWhile_cons_of_pos hb,
        List.dropWhile_cons_of_pos hb]
      exact ih h
    · rw [List.cons_append, List.dropWhile_cons_of_neg hb,
        List.dropWhile_cons_of_neg hb, List.cons_append]

theorem hasPassengerCount_append (l e : List Char)
    (h : hasPassengerCount l = true) : hasPassengerCount (l ++ e) = true := by
  induction l with
  | nil => exact absurd h (by simp [hasPassengerCount])
  | cons c t ih =>
    simp only [hasPassengerCount, Bool.or_eq_true, Bool.and_eq_true] at h
    rcases h with ⟨hd, hw⟩ | h
    · simp only [List.cons_append, hasPassengerCount, List.append_eq,
        Bool.or_eq_true, Bool.and_eq_true]
      left
      refine ⟨hd, ?_⟩
      simp only [List.any_eq_true] at hw ⊢
      obtain ⟨w, hwmem, hwpre⟩ := hw
      refine ⟨w, hwmem, ?_⟩
      have hw0 : w ≠ [] := by
        intro hwe
        rw [hwe] at hwmem
        simp [passengerWords] at hwmem
      have hA : t.dropWhile isDigitChar ≠ [] ∨ t.dropWhile isDigitChar = [] := by
        tauto
      rcases hA with hA | hA
      · rw [dropWhile_append_of_ne_nil t e hA]
        set ad := t.dropWhile isDigitChar with had
        have hB : ad.dropWhile isPySpace ≠ [] ∨ ad.dropWhile isPySpace = [] := by
          tauto
        rcases hB with hB | hB
        · rw [dropWhile_append_of_ne_nil ad e hB]
          rw [toLowerL, List.map_append]
          exact isPreL_append _ _ _ hwpre
        · rw [hB] at hwpre
          cases w with
          | nil => exact absurd rfl hw0
          | cons a as => exact absurd hwpre (by simp [toLowerL, isPreL])
      · rw [hA] at hwpre
        simp only [List.dropWhile_nil, toLowerL, List.map_nil] at hwpre
        cases w with
        | nil => exact absurd rfl hw0
        | cons a as => exact absurd hwpre (by simp [isPreL])
    · simp only [List.cons_append, hasPassengerCount, Bool.or_eq_true]
      right
      exact ih h

/-- C9 (spec-modelled): for every instruction containing an explicit
passenger-count pattern, the Missing-Field Validator does not report
`number_of_passengers` among the missing required fields. -/
theorem C9_passenger_count_not_missing (instr : String) (p : Plan)
    (h : hasPassengerCount instr.data = true) :
    "number_of_passengers" ∉ missingFields instr p := by
  intro hmem
  unfold missingFields at hmem
  rw [List.mem_filter] at hmem
  have hsat : flightFieldSatisfied "number_of_passengers" (validatorText instr p) = true := by
    unfold flightFieldSatisfied
    rw [if_neg (by decide), if_pos rfl]
    unfold validatorText
    exact hasPassengerCount_append _ _ h
  rw [hsat] at hmem
  simp at hmem

/-- C9 witness: a concrete booking instruction carrying "4 passengers". -/
theorem C9_passenger_count_not_missing_witness :
    "number_of_passengers" ∉
      missingFields "Book a flight from Delhi to Mumbai for 4 passengers" ⟨none, []⟩ :=
  C9_passenger_count_not_missing _ _ (by decide)

/-! # Claim C6: the password pattern — last match wins, fillers discarded -/

/-- C6: whenever the password pattern produces matches, the extractor's
password is computed from the last match alone: its stripped text is
discarded when it equals a filler word (`to`, `and`, `was`, `is`, `set`,
or the empty string), else it is kept with trailing `.`/`;` removed. -/
theorem C6_password_last_match_wins (instr : String) (ms : List String)
    (hm : (pwdFindAll instr.data).map (fun l => (⟨l⟩ : String)) = ms)
    (hne : ms ≠ []) :
    (extract_credentials_from_instruction instr).password =
      (if pwdFillers.contains (pyLowerS (pyStripS (ms.getLast hne)))
       then none
       else some (rstripDotSemi (pyStripS (ms.getLast hne)))) := by
  unfold extract_credentials_from_instruction
  simp only
  rw [hm]
  unfold pwdFromMatches
  rw [List.getLast?_eq_getLast ms hne]

/-- C6 witness: with two matches the last one wins; a filler candidate
("set", reached through the optional `is` keyword) yields no password. -/
theorem C6_password_last_match_wins_witness :
    (pwdFindAll "password Alpha1 and password Beta2".data).map
        (fun l => (⟨l⟩ : String)) = ["Alpha1", "Beta2"] ∧
    (extract_credentials_from_instruction
        "password Alpha1 and password Beta2").password = some "Beta2" ∧
    (pwdFindAll "password is set".data).map (fun l => (⟨l⟩ : String)) = ["set"] ∧
    (extract_credentials_from_instruction "password is set").password = none := by
  refine ⟨by decide, ?_, by decide, ?_⟩
  · rw [C6_password_last_match_wins "password Alpha1 and password Beta2"
      ["Alpha1", "Beta2"] (by decide) (by decide)]
    decide
  · rw [C6_password_last_match_wins "password is set" ["set"] (by decide) (by decide)]
    decide

/-! # Claim C2: the Instagram login scenario -/

/-- The step component of `processStep` does not depend on the incoming
environment. -/
theorem processStep_fst_env (creds : Creds) (tn : String)
    (prompt : String → String) (env env' : Env) (st : Step) :
    (processStep creds tn prompt env st).1 = (processStep creds tn prompt env' st).1 := by
  unfold processStep
  dsimp only
  (repeat' split) <;> rfl

/-- Pointwise view of `processSteps`: the `i`-th output step is the
`processStep` image of the `i`-th input step. -/
theorem processSteps_get (creds : Creds) (tn : String) (prompt : String → String)
    (steps : List Step) : ∀ (env : Env) (i : Nat),
    (processSteps creds tn prompt env steps).1.get? i =
      (steps.get? i).map (fun st => (processStep creds tn prompt [] st).1) := by
  induction steps with
  | nil => intro env i; simp [processSteps]
  | cons st rest ih =>
    intro env i
    simp only [processSteps]
    cases i with
    | zero =>
      simp only [List.get?_cons_zero]
      rw [processStep_fst_env creds tn prompt env [] st]
      rfl
    | succ j =>
      simp only [List.get?_cons_succ]
      exact ih _ j

/-- With a non-empty extracted password, the environment after a step is
the old one or the old one with one key set to that password. -/
theorem processStep_env_shape (creds : Creds) (tn : String)
    (prompt : String → String) (env : Env) (st : Step) (pw : String)
    (hp : creds.password = some pw) (hpw : pw ≠ "") :
    (processStep creds tn prompt env st).2 = env ∨
    ∃ k, (processStep creds tn prompt env st).2 = envSet env k pw := by
  have hreal : ∀ current prompted, realSecret creds current prompted = pw := by
    intro current prompted
    unfold realSecret
    rw [hp]
    simp only []
    rw [if_pos hpw]
  unfold processStep
  dsimp only
  repeat' split
  all_goals first
  | exact Or.inl rfl
  | (right
     refine ⟨"PASSWORD_" ++ detect_service_from_text (pyLowerS (st.target.getD "")) tn, ?_⟩
     rw [hreal])

theorem envGet_envSet_keep (env : Env) (k K pw : String)
    (h : envGet env K = some pw) : envGet (envSet env k pw) K = some pw := by
  by_cases hk : K = k
  · subst hk
    exact envGet_envSet_same env K pw
  · rw [envGet_envSet_other env k pw K hk]
    exact h

/-- With a non-empty extracted password, any binding of it survives the
whole loop. -/
theorem processSteps_env_keep (creds : Creds) (tn : String)
    (prompt : String → String) (steps : List Step) (pw : String)
    (hp : creds.password = some pw) (hpw : pw ≠ "") :
    ∀ (env : Env) (K : String), envGet env K = some pw →
    envGet (processSteps creds tn prompt env steps).2 K = some pw := by
  induction steps with
  | nil => intro env K h; simpa [processSteps] using h
  | cons st rest ih =>
    intro env K h
    simp only [processSteps]
    apply ih
    rcases processStep_env_shape creds tn prompt env st pw hp hpw with h2 | ⟨k, h2⟩
    · rw [h2]; exact h
    · rw [h2]; exact envGet_envSet_keep env k K pw h

/-- A `type` step with target exactly `"password"`, under a non-empty
extracted password: the value becomes the `${PASSWORD_<TASK>}` placeholder
and the store receives the extracted password under that key. -/
theorem processStep_password_hit (creds : Creds) (tn : String)
    (prompt : String → String) (env : Env) (st : Step) (pw : String)
    (hp : creds.password = some pw) (hpw : pw ≠ "")
    (ha : st.action = some "type") (ht : st.target = some "password") :
    processStep creds tn prompt env st =
      ({ st with value := some (mkPlaceholder ("PASSWORD_" ++ pyUpperS tn)) },
        envSet env ("PASSWORD_" ++ pyUpperS tn) pw) := by
  have hreal : ∀ current prompted, realSecret creds current prompted = pw := by
    intro current prompted
    unfold realSecret
    rw [hp]
    simp only []
    rw [if_pos hpw]
  have hdet : detect_service_from_text (pyLowerS "password") tn = pyUpperS tn := by
    unfold detect_service_from_text
    rw [if_neg (by decide)]
    rw [show findService (pyLowerS "password").data = none from by decide]
  unfold processStep
  rw [if_neg (by simp [ha]), ht]
  simp only [Option.getD_some]
  rw [if_neg (by decide), if_neg (by decide), if_neg (by decide), if_pos (by decide),
    hdet, hreal, if_pos hpw]

/-- If some step is a `type` step targeting `"password"`, the loop ends
with `PASSWORD_<TASK>` bound to the extracted password. -/
theorem processSteps_password_written (creds : Creds) (tn : String)
    (prompt : String → String) (pw : String)
    (hp : creds.password = some pw) (hpw : pw ≠ "") :
    ∀ (steps : List Step) (env : Env) (i : Nat) (st : Step),
      steps.get? i = some st → st.action = some "type" → st.target = some "password" →
      envGet (processSteps creds tn prompt env steps).2 ("PASSWORD_" ++ pyUpperS tn) =
        some pw := by
  intro steps
  induction steps with
  | nil =>
    intro env i st hget ha ht
    exact absurd hget (by simp)
  | cons st0 rest ih =>
    intro env i st hget ha ht
    cases i with
    | zero =>
      simp only [List.get?_cons_zero, Option.some_inj] at hget
      subst hget
      simp only [processSteps]
      apply processSteps_env_keep _ _ _ _ _ hp hpw
      rw [processStep_password_hit _ _ _ _ _ _ hp hpw ha ht]
      exact envGet_envSet_same env _ _
    | succ j =>
      simp only [List.get?_cons_succ] at hget
      simp only [processSteps]
      exact ih _ j st hget ha ht

/-- C2 counterexample: for the scenario instruction, a plan whose task is
`"mytask"` gets `${PASSWORD_MYTASK}` — not `${PASSWORD_INSTAGRAM}` — in
its password step, and no `PASSWORD_INSTAGRAM` entry is written, because
the secret key is derived from the step target or the plan's task, not
from the instruction. -/
theorem C2_counterexample :
    (handle_login_credentials
        ⟨some "mytask", [⟨some "type", some "password", some ""⟩]⟩
        "Login to instagram with username bob and password Secret123"
        (fun _ => "") []).1.steps =
      [⟨some "type", some "password", some "${PASSWORD_MYTASK}"⟩] ∧
    ("${PASSWORD_MYTASK}" : String) ≠ "${PASSWORD_INSTAGRAM}" ∧
    envGet
      (handle_login_credentials
        ⟨some "mytask", [⟨some "type", some "password", some ""⟩]⟩
        "Login to instagram with username bob and password Secret123"
        (fun _ => "") []).2 "PASSWORD_INSTAGRAM" = none := by
  refine ⟨by decide, by decide, by decide⟩

/-- C2 (amended): the extractor returns `usernames = ["bob"]` and
`password = "Secret123"` for the scenario instruction; and for any plan
whose task is `"instagram"`, every `type` step targeting `"password"` is
rewritten to `${PASSWORD_INSTAGRAM}` and the secret store afterwards maps
`PASSWORD_INSTAGRAM` to `Secret123`. -/
theorem C2_login_scenario :
    (extract_credentials_from_instruction c2instr).usernames = ["bob"] ∧
    (extract_credentials_from_instruction c2instr).password = some "Secret123" ∧
    (∀ (steps : List Step) (prompt : String → String) (env : Env) (i : Nat) (st : Step),
      steps.get? i = some st →
      st.action = some "type" → st.target = some "password" →
      (handle_login_credentials ⟨some "instagram", steps⟩ c2instr prompt env).1.steps.get? i =
        some { st with value := some "${PASSWORD_INSTAGRAM}" } ∧
      envGet (handle_login_credentials ⟨some "instagram", steps⟩ c2instr prompt env).2
        "PASSWORD_INSTAGRAM" = some "Secret123") := by
  refine ⟨by decide, by decide, ?_⟩
  intro steps prompt env i st hget ha ht
  have hp : (extract_credentials_from_instruction c2instr).password = some "Secret123" := by
    decide
  have hpw : ("Secret123" : String) ≠ "" := by decide
  constructor
  · show (processSteps (extract_credentials_from_instruction c2instr)
        ((some "instagram").getD "GENERAL") prompt env steps).1.get? i =
      some { st with value := some "${PASSWORD_INSTAGRAM}" }
    rw [processSteps_get, hget]
    simp only [Option.map_some', Option.getD_some]
    rw [processStep_password_hit _ _ _ _ _ _ hp hpw ha ht]
    rfl
  · show envGet (processSteps (extract_credentials_from_instruction c2instr)
        ((some "instagram").getD "GENERAL") prompt env steps).2 "PASSWORD_INSTAGRAM" =
      some "Secret123"
    exact processSteps_password_written _ _ _ _ hp hpw steps env i st hget ha ht

/-- C2 witness: the sanitizer run on a concrete Instagram plan. -/
theorem C2_login_scenario_witness :
    (handle_login_credentials
        ⟨some "instagram", [⟨some "type", some "password", none⟩]⟩
        c2instr (fun _ => "") []).1.steps.get? 0 =
      some ⟨some "type", some "password", some "${PASSWORD_INSTAGRAM}"⟩ ∧
    envGet (handle_login_credentials
        ⟨some "instagram", [⟨some "type", some "password", none⟩]⟩
        c2instr (fun _ => "") []).2 "PASSWORD_INSTAGRAM" = some "Secret123" :=
  C2_login_scenario.2.2 [⟨some "type", some "password", none⟩] (fun _ => "") [] 0
    ⟨some "type", some "password", none⟩ rfl rfl rfl

/-! # Claim C5: the response normalizer fallback -/

/-- C5 counterexample: when a brace candidate is found but fails to
parse, `clean_json_response` wraps the candidate substring, not the
original input text, so the claim's "returns the original input" is
false for `"foo {bad} bar"`. -/
theorem C5_counterexample :
    clean_json_response "foo {bad} bar" = rawObj "{bad}" ∧
    rawObj "{bad}" ≠ rawObj "foo {bad} bar" := by
  constructor
  · rfl
  · intro h
    simp only [rawObj, JVal.obj.injEq, List.cons.injEq, Prod.mk.injEq,
      JVal.str.injEq, and_true, true_and] at h
    exact absurd h (by decide)

/-- C5 (amended): `clean_json_response` is a total function (no exception
can escape); when no brace-delimited candidate exists in the fence-
stripped text it returns `{"raw_text": <original input>}`, and when a
candidate is found but does not parse it returns
`{"raw_text": <candidate substring>}` — the candidate, not the original
text. -/
theorem C5_normalizer_fallback (s : String) :
    (findCandidate (pyStripL (stripFences s.data)) = none →
      clean_json_response s = rawObj s) ∧
    (∀ cand, findCandidate (pyStripL (stripFences s.data)) = some cand →
      jsonLoads cand = none → clean_json_response s = rawObj ⟨cand⟩) := by
  constructor
  · intro h
    unfold clean_json_response
    dsimp only
    rw [h]
  · intro cand h hj
    unfold clean_json_response
    dsimp only
    rw [h]
    simp only []
    rw [hj]

/-- C5 witness: the spec's malformed-output scenario has no brace
candidate and is returned whole; a failing candidate input returns just
the candidate. -/
theorem C5_normalizer_fallback_witness :
    clean_json_response c5scenario = rawObj c5scenario ∧
    clean_json_response "x {oops} y" = rawObj "{oops}" := by
  constructor
  · exact (C5_normalizer_fallback c5scenario).1 (by decide)
  · exact (C5_normalizer_fallback "x {oops} y").2 "{oops}".data (by decide) rfl

/-! # Claim C7: the stepwise renderer -/

/-- C7 counterexample: a step with a present value whose resolved display
is empty (an unset placeholder) renders with no `" | Value: "` suffix at
all, refuting "appending … whenever the step has a value". -/
theorem C7_counterexample :
    json_to_stepwise_text ⟨some "t", [⟨some "type", some "code", some "${UNSET}"⟩]⟩ [] =
      "Step 1: Type -> code" ∧
    resolve_secret "${UNSET}" [] = "" ∧
    ("Step 1: Type -> code" : String) ≠ "Step 1: Type -> code | Value: " ∧
    (⟨some "type", some "code", some "${UNSET}"⟩ : Step).value ≠ none := by
  refine ⟨by decide, by decide, by decide, by decide⟩

/-- C7 (amended): for a non-empty plan the renderer emits one line per
step, numbered from 1, of the shape
`"Step <n>: <Action capitalized> -> <target>"`; a `" | Value: …"` suffix
is appended exactly when the step's value is present and displays as a
non-empty string — any step whose (defaulted) target contains "password"
(case-insensitively) displays the fixed eight-star mask regardless of its
value and environment, and other values display their `resolve_secret`
image, the suffix being dropped when that image is empty. -/
theorem C7_stepwise_renderer (p : Plan) (env : Env) (hne : p.steps ≠ []) :
    (json_to_stepwise_text p env =
      String.intercalate "
" (p.steps.enum.map fun pr => renderStep env pr.1 pr.2)) ∧
    (∀ i st, p.steps.get? i = some st →
      (∀ v, st.value = some v →
        inS "password" (pyLowerS (st.target.getD "<target>")) = true →
        renderStep env i st =
          "Step " ++ toString (i + 1) ++ ": " ++
            pyCapitalize (st.action.getD "<action>") ++ " -> " ++
            st.target.getD "<target>" ++ " | Value: " ++ "********") ∧
      (st.value = none →
        renderStep env i st =
          "Step " ++ toString (i + 1) ++ ": " ++
            pyCapitalize (st.action.getD "<action>") ++ " -> " ++
            st.target.getD "<target>") ∧
      (∀ v, st.value = some v →
        inS "password" (pyLowerS (st.target.getD "<target>")) = false →
        ((resolve_secret v env = "" →
          renderStep env i st =
            "Step " ++ toString (i + 1) ++ ": " ++
              pyCapitalize (st.action.getD "<action>") ++ " -> " ++
              st.target.getD "<target>") ∧
         (resolve_secret v env ≠ "" →
          renderStep env i st =
            "Step " ++ toString (i + 1) ++ ": " ++
              pyCapitalize (st.action.getD "<action>") ++ " -> " ++
              st.target.getD "<target>" ++ " | Value: " ++ resolve_secret v env)))) := by
  constructor
  · unfold json_to_stepwise_text
    rw [if_neg hne]
  · intro i st _
    refine ⟨?_, ?_, ?_⟩
    · intro v hv hmask
      unfold renderStep
      rw [hv]
      simp only [if_pos hmask]
      rw [if_pos (by decide)]
      rfl
    · intro hv
      unfold renderStep
      rw [hv]
    · intro v hv hmask
      unfold renderStep
      rw [hv]
      simp only [hmask, Bool.false_eq_true, if_false]
      constructor
      · intro hres
        rw [if_neg (by simp [hres])]
      · intro hres
        rw [if_pos (by simpa using hres)]

/-- C7 witness: a two-step plan exercising the masked password line and
the plain resolved line. -/
theorem C7_stepwise_renderer_witness :
    json_to_stepwise_text
        ⟨some "t", [⟨some "type", some "Password field", some "${K}"⟩,
                    ⟨some "goto", some "home", some "h"⟩]⟩ [("K", "v")] =
      String.intercalate "
"
        (([⟨some "type", some "Password field", some "${K}"⟩,
           ⟨some "goto", some "home", some "h"⟩] : List Step).enum.map
          fun pr => renderStep [("K", "v")] pr.1 pr.2) ∧
    json_to_stepwise_text
        ⟨some "t", [⟨some "type", some "Password field", some "${K}"⟩,
                    ⟨some "goto", some "home", some "h"⟩]⟩ [("K", "v")] =
      "Step 1: Type -> Password field | Value: ********" ++ "\n" ++
        "Step 2: Goto -> home | Value: h" :=
  ⟨(C7_stepwise_renderer
      ⟨some "t", [⟨some "type", some "Password field", some "${K}"⟩,
                  ⟨some "goto", some "home", some "h"⟩]⟩ [("K", "v")]
      (by decide)).1, by decide⟩

/-! # Claim C10: credential substitution only touches `type` step values -/

theorem processStep_frame (creds : Creds) (taskName : String)
    (prompt : String → String) (env : Env) (st : Step) :
    (processStep creds taskName prompt env st).1.action = st.action ∧
    (processStep creds taskName prompt env st).1.target = st.target ∧
    (st.action ≠ some "type" → (processStep creds taskName prompt env st).1 = st) := by
  by_cases ha : st.action ≠ some "type"
  · rw [processStep, if_pos ha]
    exact ⟨rfl, rfl, fun _ => rfl⟩
  · rw [processStep, if_neg ha]
    refine ⟨?_, ?_, fun h => absurd (not_not.mp ha) h⟩ <;>
      (simp only [] ; repeat' split) <;> rfl

theorem processSteps_frame (creds : Creds) (taskName : String)
    (prompt : String → String) (env : Env) (steps : List Step) :
    List.Forall₂
      (fun st st' => st'.action = st.action ∧ st'.target = st.target ∧
        (st.action ≠ some "type" → st' = st))
      steps (processSteps creds taskName prompt env steps).1 := by
  induction steps generalizing env with
  | nil => simp [processSteps]
  | cons st rest ih =>
    simp only [processSteps]
    exact List.Forall₂.cons (processStep_frame creds taskName prompt env st)
      (ih ((processStep creds taskName prompt env st).2))

/-- C10: `handle_login_credentials` only rewrites the `value` of steps
whose action is exactly `"type"`: every other step is returned unchanged,
and the `task` field and every step's `action` and `target` are
preserved. -/
theorem C10_handle_frame (p : Plan) (instr : String)
    (prompt : String → String) (env : Env) :
    (handle_login_credentials p instr prompt env).1.task = p.task ∧
    List.Forall₂
      (fun st st' => st'.action = st.action ∧ st'.target = st.target ∧
        (st.action ≠ some "type" → st' = st))
      p.steps (handle_login_credentials p instr prompt env).1.steps := by
  unfold handle_login_credentials
  exact ⟨rfl, processSteps_frame _ _ _ _ _⟩

/-! # Claim C1: password-like `type` steps after credential substitution -/

/-- C1 counterexample: the target `"user password"` matches the claim's
password-like pattern (it contains "password"), but the `elif` chain
classifies it as username-like first, so the literal secret `"Secret123"`
survives sanitization and the final value matches no `${KEY}` shape. -/
theorem C1_counterexample :
    (handle_login_credentials
        ⟨none, [⟨some "type", some "user password", some "Secret123"⟩]⟩
        "" (fun _ => "") []).1.steps =
      [⟨some "type", some "user password", some "Secret123"⟩] ∧
    passwordLikeTarget ⟨some "type", some "user password", some "Secret123"⟩ = true ∧
    isPlaceholder "Secret123" = false := by
  refine ⟨by decide, by decide, by decide⟩

/-- The value of the password branch: whenever a `type` step is
password-like and not identifier-like, its output value is a fresh
placeholder, or it is left whole with an empty-or-placeholder original
value. -/
theorem realSecret_empty (creds : Creds) (current prompted : String)
    (h : realSecret creds current prompted = "") :
    current = "" ∨ isPlaceholder current = true := by
  have fallback :
      (if current ≠ "" && !isPlaceholder current then current else prompted) = "" →
      current = "" ∨ isPlaceholder current = true := by
    intro hf
    by_cases hce : current = ""
    · exact Or.inl hce
    · by_cases hpl : isPlaceholder current = true
      · exact Or.inr hpl
      · have hcond : (decide (current ≠ "") && !isPlaceholder current) = true := by
          simp [hce, hpl]
        rw [if_pos hcond] at hf
        exact absurd hf hce
  unfold realSecret at h
  cases hp : creds.password with
  | some p =>
    rw [hp] at h
    simp only [] at h
    by_cases hpe : p ≠ ""
    · rw [if_pos hpe] at h
      exact absurd h hpe
    · rw [if_neg hpe] at h
      exact fallback h
  | none =>
    rw [hp] at h
    simp only [] at h
    exact fallback h

theorem processStep_password (creds : Creds) (tn : String)
    (prompt : String → String) (env : Env) (st : Step)
    (ha : st.action = some "type") (hpw : passwordLikeTarget st = true)
    (hid : identLikeTarget st = false) :
    (∃ k, (processStep creds tn prompt env st).1.value = some (mkPlaceholder k)) ∨
    ((processStep creds tn prompt env st).1 = st ∧
      (st.value.getD "" = "" ∨ isPlaceholder (st.value.getD "") = true)) := by
  simp only [identLikeTarget, Bool.or_eq_false_iff] at hid
  obtain ⟨⟨⟨⟨⟨h1, h2⟩, h3⟩, h4⟩, h5⟩, h6⟩ := hid
  unfold processStep
  rw [if_neg (by simp [ha])]
  simp only
  rw [if_neg (by simp [h1, h2]), if_neg (by simp [h3, h4]), if_neg (by simp [h5, h6]),
    if_pos (by simpa [passwordLikeTarget] using hpw)]
  by_cases hrv : realSecret creds (st.value.getD "")
      (pyStripS (prompt (detect_service_from_text (pyLowerS (st.target.getD "")) tn))) ≠ ""
  · rw [if_pos hrv]
    exact Or.inl ⟨_, rfl⟩
  · rw [if_neg hrv]
    push_neg at hrv
    exact Or.inr ⟨rfl, realSecret_empty _ _ _ hrv⟩

/-- C1 (amended): after `handle_login_credentials`, every `type` step
whose target is password-like and is not captured by one of the earlier
username/email/phone branches has a value that is either a freshly
written `${KEY}` placeholder, or its original value unchanged where that
original was absent/empty or already accepted by the placeholder pattern
(this happens exactly when no non-empty secret source exists); it is
never a literal secret. -/
theorem C1_password_steps_sanitized (p : Plan) (instr : String)
    (prompt : String → String) (env : Env) :
    List.Forall₂
      (fun st st' =>
        st.action = some "type" → passwordLikeTarget st = true →
        identLikeTarget st = false →
        ((∃ k, st'.value = some (mkPlaceholder k)) ∨
          (st'.value = st.value ∧
            (st.value.getD "" = "" ∨ isPlaceholder (st.value.getD "") = true))))
      p.steps (handle_login_credentials p instr prompt env).1.steps := by
  unfold handle_login_credentials
  simp only
  generalize extract_credentials_from_instruction instr = creds
  generalize p.task.getD "GENERAL" = tn
  induction p.steps generalizing env with
  | nil => simp [processSteps]
  | cons st rest ih =>
    simp only [processSteps]
    refine List.Forall₂.cons ?_ (ih _)
    intro ha hpw hid
    rcases processStep_password creds tn prompt env st ha hpw hid with ⟨k, hk⟩ | ⟨he, hd⟩
    · exact Or.inl ⟨k, hk⟩
    · exact Or.inr ⟨by rw [he], hd⟩

/-- C1 witness: a bare password-targeted `type` step with a literal
current value is rewritten to the `${PASSWORD_GENERAL}` placeholder. -/
theorem C1_password_steps_sanitized_witness :
    List.Forall₂
      (fun st st' =>
        st.action = some "type" → passwordLikeTarget st = true →
        identLikeTarget st = false →
        ((∃ k, st'.value = some (mkPlaceholder k)) ∨
          (st'.value = st.value ∧
            (st.value.getD "" = "" ∨ isPlaceholder (st.value.getD "") = true))))
      [⟨some "type", some "password", some "hunter2"⟩]
      (handle_login_credentials
        ⟨none, [⟨some "type", some "password", some "hunter2"⟩]⟩
        "" (fun _ => "") []).1.steps ∧
    (handle_login_credentials
        ⟨none, [⟨some "type", some "password", some "hunter2"⟩]⟩
        "" (fun _ => "") []).1.steps =
      [⟨some "type", some "password", some "${PASSWORD_GENERAL}"⟩] :=
  ⟨C1_password_steps_sanitized ⟨none, [⟨some "type", some "password", some "hunter2"⟩]⟩
    "" (fun _ => "") [], by decide⟩

end PlanSan

namespace PlanSan

/-- C10 witness: the frame property instantiated at a concrete plan with
a non-`type` step carrying a password-like target. -/
theorem C10_handle_frame_witness :
    (handle_login_credentials
        ⟨some "t", [⟨some "click", some "password", some "Secret123"⟩]⟩
        "password Abc" (fun _ => "p") []).1.task = some "t" ∧
    List.Forall₂
      (fun st st' => st'.action = st.action ∧ st'.target = st.target ∧
        (st.action ≠ some "type" → st' = st))
      [⟨some "click", some "password", some "Secret123"⟩]
      (handle_login_credentials
        ⟨some "t", [⟨some "click", some "password", some "Secret123"⟩]⟩
        "password Abc" (fun _ => "p") []).1.steps :=
  C10_handle_frame ⟨some "t", [⟨some "click", some "password", some "Secret123"⟩]⟩
    "password Abc" (fun _ => "p") []


/-! # Claim C3: idempotence of the sanitizer pipeline

The development below establishes that the per-string sanitizer
`applySubs serviceRules ∘ urlPass ∘ removeStr` is idempotent, and from it
the plan-level statement.  The proofs work through the defining equations
of the well-founded scanners. -/

theorem removeStr_nil : removeStr [] = [] := by
  unfold removeStr
  rfl

theorem removeStr_eq_match {s u r : List Char} (h : matchUrl s = some (u, r)) :
    removeStr s = websiteMark ++ removeStr r := by
  conv_lhs => rw [removeStr.eq_def]
  split
  · next u2 r2 heq =>
    rw [h] at heq
    simp only [Option.some.injEq, Prod.mk.injEq] at heq
    rw [heq.2]
  · next hnone =>
    rw [hnone] at h
    exact absurd h (by simp)

theorem removeStr_eq_cons {c : Char} {t : List Char} (h : matchUrl (c :: t) = none) :
    removeStr (c :: t) = c :: removeStr t := by
  conv_lhs => rw [removeStr.eq_def]
  split
  · next u2 r2 heq =>
    rw [h] at heq
    exact absurd heq (by simp)
  · rfl

theorem urlPass_nil : urlPass [] = [] := by
  unfold urlPass
  rfl

theorem urlPass_eq_match {s u r : List Char} (h : matchUrl s = some (u, r)) :
    urlPass s = serviceOfUrl u ++ urlPass r := by
  conv_lhs => rw [urlPass.eq_def]
  split
  · next u2 r2 heq =>
    rw [h] at heq
    simp only [Option.some.injEq, Prod.mk.injEq] at heq
    rw [heq.1, heq.2]
  · next hnone =>
    rw [hnone] at h
    exact absurd h (by simp)

theorem urlPass_eq_cons {c : Char} {t : List Char} (h : matchUrl (c :: t) = none) :
    urlPass (c :: t) = c :: urlPass t := by
  conv_lhs => rw [urlPass.eq_def]
  split
  · next u2 r2 heq =>
    rw [h] at heq
    exact absurd heq (by simp)
  · rfl

theorem subAux_nil (k n : List Char) (b : Bool) : subAux k n b [] = [] := by
  unfold subAux
  rfl

theorem subAux_eq_match {k n : List Char} {b : Bool} {c : Char} {t : List Char}
    (h : wMatch k b (c :: t) = true) :
    subAux k n b (c :: t) = n ++ subAux k n true (t.drop (k.length - 1)) := by
  conv_lhs => rw [subAux.eq_def]
  simp only []
  rw [if_pos h]

theorem subAux_eq_cons {k n : List Char} {b : Bool} {c : Char} {t : List Char}
    (h : wMatch k b (c :: t) = false) :
    subAux k n b (c :: t) = c :: subAux k n (isWordChar c) t := by
  conv_lhs => rw [subAux.eq_def]
  simp only []
  rw [if_neg (by simp [h])]

/-! ## Shape facts about the URL matcher -/

theorem matchUrl_head {c : Char} {t : List Char} {p : List Char × List Char}
    (h : matchUrl (c :: t) = some p) : c = 'h' := by
  unfold matchUrl at h
  split at h
  · next heq => injection heq with h1 h2 <;> exact h1
  · next heq => injection heq with h1 h2 <;> exact h1
  · exact absurd h (by simp)

theorem matchUrl_none_of_ne_h {c : Char} {t : List Char} (hc : c ≠ 'h') :
    matchUrl (c :: t) = none := by
  cases hm : matchUrl (c :: t) with
  | none => rfl
  | some p => exact absurd (matchUrl_head hm) hc

/-- The two shapes of a successful URL match: an `http://` or `https://`
literal followed by a non-space character. -/
theorem matchUrl_some_shape {s : List Char} {p : List Char × List Char}
    (h : matchUrl s = some p) :
    (∃ z0 zt, s = 'h' :: 't' :: 't' :: 'p' :: ':' :: '/' :: '/' :: z0 :: zt ∧
        isPySpace z0 = false) ∨
    (∃ z0 zt, s = 'h' :: 't' :: 't' :: 'p' :: 's' :: ':' :: '/' :: '/' :: z0 :: zt ∧
        isPySpace z0 = false) := by
  unfold matchUrl at h
  split at h
  · next rest =>
    cases rest with
    | nil => simp [show munchNS [] = ([], []) from rfl] at h
    | cons z0 zt =>
      by_cases hsp : isPySpace z0
      · rw [show munchNS (z0 :: zt) = ([], z0 :: zt) from by
          unfold munchNS; rw [if_pos hsp]] at h
        simp at h
      · exact Or.inr ⟨z0, zt, rfl, by simpa using hsp⟩
  · next rest =>
    cases rest with
    | nil => simp [show munchNS [] = ([], []) from rfl] at h
    | cons z0 zt =>
      by_cases hsp : isPySpace z0
      · rw [show munchNS (z0 :: zt) = ([], z0 :: zt) from by
          unfold munchNS; rw [if_pos hsp]] at h
        simp at h
      · exact Or.inl ⟨z0, zt, rfl, by simpa using hsp⟩
  · exact absurd h (by simp)

theorem munchNS_cons_nospace {c : Char} {t : List Char} (h : isPySpace c = false) :
    munchNS (c :: t) = ((munchNS t).1.cons c, (munchNS t).2) := by
  conv_lhs => rw [munchNS]
  rw [if_neg (by simp [h])]

theorem matchUrl_isSome_http {z0 : Char} {zt : List Char} (hsp : isPySpace z0 = false) :
    (matchUrl ('h' :: 't' :: 't' :: 'p' :: ':' :: '/' :: '/' :: z0 :: zt)).isSome = true := by
  unfold matchUrl
  simp only []
  rw [munchNS_cons_nospace hsp]
  simp

theorem matchUrl_isSome_https {z0 : Char} {zt : List Char} (hsp : isPySpace z0 = false) :
    (matchUrl ('h' :: 't' :: 't' :: 'p' :: 's' :: ':' :: '/' :: '/' :: z0 :: zt)).isSome = true := by
  unfold matchUrl
  simp only []
  rw [munchNS_cons_nospace hsp]
  simp

/-! ## Peeling characters through `removeStr` -/

theorem removeStr_peel {d : Char} {t X : List Char} (hd2 : d ≠ '<')
    (h : removeStr t = d :: X) : ∃ t', t = d :: t' ∧ X = removeStr t' := by
  cases t with
  | nil =>
    rw [removeStr_nil] at h
    exact absurd h (by simp)
  | cons c t' =>
    cases hm : matchUrl (c :: t') with
    | some p =>
      obtain ⟨u, r⟩ := p
      rw [removeStr_eq_match hm] at h
      rw [show websiteMark = '<' :: "website>".data from rfl] at h
      injection h with h1 _
      exact absurd h1.symm hd2
    | none =>
      rw [removeStr_eq_cons hm] at h
      injection h with h1 h2
      exact ⟨t', by rw [h1], h2.symm⟩

/-- If a URL starts at `c` followed by the image of `removeStr`, then a
URL already starts at `c` followed by the original text. -/
theorem matchUrl_transfer {c : Char} {t : List Char} {p : List Char × List Char}
    (h : matchUrl (c :: removeStr t) = some p) :
    (matchUrl (c :: t)).isSome = true := by
  rcases matchUrl_some_shape h with ⟨z0, zt, heq, hsp⟩ | ⟨z0, zt, heq, hsp⟩
  · -- http://
    injection heq with hc hrest
    obtain ⟨t1, ht1, hX1⟩ := removeStr_peel (by decide) hrest
    obtain ⟨t2, ht2, hX2⟩ := removeStr_peel (by decide) hX1.symm
    obtain ⟨t3, ht3, hX3⟩ := removeStr_peel (by decide) hX2.symm
    obtain ⟨t4, ht4, hX4⟩ := removeStr_peel (by decide) hX3.symm
    obtain ⟨t5, ht5, hX5⟩ := removeStr_peel (by decide) hX4.symm
    obtain ⟨t6, ht6, hX6⟩ := removeStr_peel (by decide) hX5.symm
    subst hc ht1 ht2 ht3 ht4 ht5 ht6
    cases t6 with
    | nil =>
      rw [removeStr_nil] at hX6
      exact absurd hX6.symm (by simp)
    | cons e t7 =>
      cases hm : matchUrl (e :: t7) with
      | some p2 =>
        have he : e = 'h' := matchUrl_head hm
        subst he
        exact matchUrl_isSome_http (by decide)
      | none =>
        rw [removeStr_eq_cons hm] at hX6
        injection hX6.symm with h1 _
        have hspe : isPySpace e = false := by rw [h1]; exact hsp
        exact matchUrl_isSome_http hspe
  · -- https://
    injection heq with hc hrest
    obtain ⟨t1, ht1, hX1⟩ := removeStr_peel (by decide) hrest
    obtain ⟨t2, ht2, hX2⟩ := removeStr_peel (by decide) hX1.symm
    obtain ⟨t3, ht3, hX3⟩ := removeStr_peel (by decide) hX2.symm
    obtain ⟨t4, ht4, hX4⟩ := removeStr_peel (by decide) hX3.symm
    obtain ⟨t5, ht5, hX5⟩ := removeStr_peel (by decide) hX4.symm
    obtain ⟨t6, ht6, hX6⟩ := removeStr_peel (by decide) hX5.symm
    obtain ⟨t7, ht7, hX7⟩ := removeStr_peel (by decide) hX6.symm
    subst hc ht1 ht2 ht3 ht4 ht5 ht6 ht7
    cases t7 with
    | nil =>
      rw [removeStr_nil] at hX7
      exact absurd hX7.symm (by simp)
    | cons e t8 =>
      cases hm : matchUrl (e :: t8) with
      | some p2 =>
        have he : e = 'h' := matchUrl_head hm
        subst he
        exact matchUrl_isSome_https (by decide)
      | none =>
        rw [removeStr_eq_cons hm] at hX7
        injection hX7.symm with h1 _
        have hspe : isPySpace e = false := by rw [h1]; exact hsp
        exact matchUrl_isSome_https hspe

/-! ## `removeStr` output is URL-free -/

theorem noUrlB_append_noh {w : List Char} (hw : ∀ c ∈ w, c ≠ 'h') (x : List Char) :
    noUrlB (w ++ x) = noUrlB x := by
  induction w with
  | nil => rfl
  | cons c wt ih =>
    show ((matchUrl (c :: (wt ++ x))).isNone && noUrlB (wt ++ x)) = noUrlB x
    rw [matchUrl_none_of_ne_h (hw c (by simp))]
    rw [ih (fun d hd => hw d (by simp [hd]))]
    rfl

theorem noUrlB_remove (s : List Char) : noUrlB (removeStr s) = true := by
  have H : ∀ (N : Nat) (s : List Char), s.length ≤ N → noUrlB (removeStr s) = true := by
    intro N
    induction N with
    | zero =>
      intro s hs
      cases s with
      | nil => rw [removeStr_nil]; rfl
      | cons c t => simp at hs
    | succ N ih =>
      intro s hs
      cases s with
      | nil => rw [removeStr_nil]; rfl
      | cons c t =>
        cases hm : matchUrl (c :: t) with
        | some p =>
          obtain ⟨u, r⟩ := p
          rw [removeStr_eq_match hm, noUrlB_append_noh (by decide) (removeStr r)]
          exact ih r (by have h2 := matchUrl_rest_len hm; simp only [List.length_cons] at h2 hs; omega)
        | none =>
          rw [removeStr_eq_cons hm]
          show ((matchUrl (c :: removeStr t)).isNone && noUrlB (removeStr t)) = true
          have h2 : noUrlB (removeStr t) = true :=
            ih t (by simp only [List.length_cons] at hs; omega)
          have h1 : (matchUrl (c :: removeStr t)).isNone = true := by
            cases hm2 : matchUrl (c :: removeStr t) with
            | none => rfl
            | some p2 =>
              have h3 := matchUrl_transfer hm2
              rw [hm] at h3
              exact absurd h3 (by simp)
          rw [h1, h2]
          rfl
  exact H s.length s le_rfl

/-! ## URL-free strings are fixed by `removeStr` and `urlPass` -/

theorem noUrlB_cons {c : Char} {t : List Char} (h : noUrlB (c :: t) = true) :
    matchUrl (c :: t) = none ∧ noUrlB t = true := by
  have h2 : ((matchUrl (c :: t)).isNone && noUrlB t) = true := h
  simp only [Bool.and_eq_true, Option.isNone_iff_eq_none] at h2
  exact h2

theorem removeStr_id_of_noUrl {s : List Char} (h : noUrlB s = true) :
    removeStr s = s := by
  induction s with
  | nil => exact removeStr_nil
  | cons c t ih =>
    obtain ⟨h1, h2⟩ := noUrlB_cons h
    rw [removeStr_eq_cons h1, ih h2]

theorem urlPass_id_of_noUrl {s : List Char} (h : noUrlB s = true) :
    urlPass s = s := by
  induction s with
  | nil => exact urlPass_nil
  | cons c t ih =>
    obtain ⟨h1, h2⟩ := noUrlB_cons h
    rw [urlPass_eq_cons h1, ih h2]

theorem removeStr_idem (s : List Char) : removeStr (removeStr s) = removeStr s :=
  removeStr_id_of_noUrl (noUrlB_remove s)

/-! ## Character and skeleton lemmas for the word substitutions -/

theorem toNat_ofNat_lt (n : Nat) (h : n < 55296) : (Char.ofNat n).toNat = n := by
  unfold Char.ofNat
  rw [dif_pos (Or.inl h)]
  rfl

theorem isWordChar_lowerChar (c : Char) : isWordChar (lowerChar c) = isWordChar c := by
  unfold lowerChar isWordChar
  split
  · next h =>
    have h2 : (Char.ofNat (c.toNat + 32)).toNat = c.toNat + 32 :=
      toNat_ofNat_lt _ (by omega)
    rw [h2]
    rw [Bool.eq_iff_iff]
    simp only [Bool.or_eq_true, decide_eq_true_eq, Bool.and_eq_true]
    omega
  · rfl

theorem isAlphaChar_lowerChar (c : Char) : isAlphaChar (lowerChar c) = isAlphaChar c := by
  unfold lowerChar isAlphaChar
  split
  · next h =>
    have h2 : (Char.ofNat (c.toNat + 32)).toNat = c.toNat + 32 :=
      toNat_ofNat_lt _ (by omega)
    rw [h2]
    rw [Bool.eq_iff_iff]
    simp only [Bool.or_eq_true, decide_eq_true_eq, Bool.and_eq_true]
    omega
  · rfl

theorem isWordChar_of_alpha {c : Char} (h : isAlphaChar c = true) :
    isWordChar c = true := by
  unfold isAlphaChar at h
  unfold isWordChar
  simp only [Bool.or_eq_true, decide_eq_true_eq, Bool.and_eq_true] at h ⊢
  omega

theorem isPySpace_false_of_alpha {c : Char} (h : isAlphaChar c = true) :
    isPySpace c = false := by
  unfold isAlphaChar at h
  simp only [Bool.or_eq_true, Bool.and_eq_true, decide_eq_true_eq] at h
  unfold isPySpace
  have h1 : c.toNat ≠ 32 ∧ c.toNat ≠ 9 ∧ c.toNat ≠ 10 ∧ c.toNat ≠ 13 ∧
      c.toNat ≠ 11 ∧ c.toNat ≠ 12 := by omega
  simp only [Bool.or_eq_false_iff, decide_eq_false_iff_not]
  refine ⟨⟨⟨⟨⟨?_, ?_⟩, ?_⟩, ?_⟩, ?_⟩, ?_⟩ <;>
    (intro he; rw [he] at h1 <;> simp_all) <;> omega

/-! ## `stripCI` structure -/

theorem stripCI_eq_drop {k s r : List Char} (h : stripCI k s = some r) :
    r = s.drop k.length ∧ k.length ≤ s.length ∧ toLowerL (s.take k.length) = k := by
  induction k generalizing s r with
  | nil =>
    rw [show stripCI [] s = some s from rfl] at h
    injection h with h1
    simp [h1.symm, toLowerL]
  | cons a as ih =>
    cases s with
    | nil => exact absurd h (by rw [show stripCI (a :: as) [] = none from rfl]; simp)
    | cons b bs =>
      rw [show stripCI (a :: as) (b :: bs) =
          (if lowerChar b = a then stripCI as bs else none) from rfl] at h
      by_cases hb : lowerChar b = a
      · rw [if_pos hb] at h
        obtain ⟨h1, h2, h3⟩ := ih h
        refine ⟨by simpa using h1, by simpa using h2, ?_⟩
        simp only [List.length_cons, List.take_succ_cons, toLowerL, List.map_cons] at h3 ⊢
        rw [hb, h3]
      · rw [if_neg hb] at h
        exact absurd h (by simp)

theorem stripCI_isSome_iff (k : List Char) : ∀ (s : List Char),
    (stripCI k s).isSome = isPreL k (toLowerL s) := by
  induction k with
  | nil => intro s; rfl
  | cons a as ih =>
    intro s
    cases s with
    | nil => rfl
    | cons b bs =>
      rw [show stripCI (a :: as) (b :: bs) =
          (if lowerChar b = a then stripCI as bs else none) from rfl]
      show _ = (a = lowerChar b && isPreL as (toLowerL bs))
      by_cases hb : lowerChar b = a
      · rw [if_pos hb, hb]
        simp [ih bs]
      · rw [if_neg hb]
        have : (a = lowerChar b) = False := by
          simp only [eq_iff_iff, iff_false]
          intro hh
          exact hb hh.symm
        simp [this]

theorem stripCI_some_drop {k s : List Char} (h : isPreL k (toLowerL s) = true) :
    stripCI k s = some (s.drop k.length) := by
  have h2 : (stripCI k s).isSome = true := by rw [stripCI_isSome_iff]; exact h
  cases hm : stripCI k s with
  | none => rw [hm] at h2; exact absurd h2 (by simp)
  | some r =>
    obtain ⟨h1, _, _⟩ := stripCI_eq_drop hm
    rw [h1]

/-! ## Skeleton invariance of the matching condition -/

theorem toLowerL_length (s : List Char) : (toLowerL s).length = s.length := by
  simp [toLowerL]

theorem bOk_of_toLowerL_eq {a b : List Char} (h : toLowerL a = toLowerL b) :
    bOk a = bOk b := by
  cases a with
  | nil =>
    cases b with
    | nil => rfl
    | cons b0 bt => exact absurd h (by simp [toLowerL])
  | cons a0 at2 =>
    cases b with
    | nil => exact absurd h (by simp [toLowerL])
    | cons b0 bt =>
      simp only [toLowerL, List.map_cons, List.cons.injEq] at h
      show (!isWordChar a0) = (!isWordChar b0)
      rw [← isWordChar_lowerChar a0, ← isWordChar_lowerChar b0, h.1]

theorem toLowerL_drop (s : List Char) (m : Nat) :
    toLowerL (s.drop m) = (toLowerL s).drop m := by
  simp [toLowerL, List.map_drop]

theorem wMatch_eq (k : List Char) (b : Bool) (s : List Char) :
    wMatch k b s = (!b && (isPreL k (toLowerL s) && bOk (s.drop k.length))) := by
  unfold wMatch
  cases hm : stripCI k s with
  | none =>
    have h2 : isPreL k (toLowerL s) = false := by
      rw [← stripCI_isSome_iff, hm]
      rfl
    rw [h2]
    simp
  | some r =>
    have h2 : isPreL k (toLowerL s) = true := by
      rw [← stripCI_isSome_iff, hm]
      rfl
    obtain ⟨h1, _, _⟩ := stripCI_eq_drop hm
    rw [h2, h1]
    simp

theorem wMatch_skeleton {s1 s2 : List Char} (k : List Char) (b : Bool)
    (h : toLowerL s1 = toLowerL s2) : wMatch k b s1 = wMatch k b s2 := by
  rw [wMatch_eq, wMatch_eq, h]
  congr 1
  congr 1
  apply bOk_of_toLowerL_eq
  rw [toLowerL_drop, toLowerL_drop, h]

theorem toLowerL_append (a b : List Char) :
    toLowerL (a ++ b) = toLowerL a ++ toLowerL b := by
  simp [toLowerL]

theorem eq_append_drop_of_isPreL : ∀ {k s : List Char}, isPreL k s = true →
    s = k ++ s.drop k.length := by
  intro k
  induction k with
  | nil => intro s _; simp
  | cons a as ih =>
    intro s h
    cases s with
    | nil => exact absurd h (by simp [isPreL])
    | cons b bs =>
      simp only [isPreL, Bool.and_eq_true, decide_eq_true_eq] at h
      obtain ⟨hab, h2⟩ := h
      simp only [List.length_cons, List.drop_succ_cons, List.cons_append]
      rw [hab]
      exact congrArg (b :: ·) (ih h2)

/-- The substitution pass never changes the lower-cased skeleton of the
string: it replaces a case-insensitive occurrence of the key by the
cased name whose lowering is the key. -/
theorem toLowerL_subAux {k n : List Char} (hkn : toLowerL n = k) (hk : k ≠ []) :
    ∀ (b : Bool) (s : List Char), toLowerL (subAux k n b s) = toLowerL s := by
  have H : ∀ (N : Nat) (b : Bool) (s : List Char), s.length ≤ N →
      toLowerL (subAux k n b s) = toLowerL s := by
    intro N
    induction N with
    | zero =>
      intro b s hN
      have hs : s = [] := List.length_eq_zero.mp (Nat.le_zero.mp hN)
      rw [hs, subAux_nil]
    | succ N ih =>
      intro b s hN
      cases s with
      | nil => rw [subAux_nil]
      | cons c t =>
        simp only [List.length_cons] at hN
        cases hw : wMatch k b (c :: t) with
        | false =>
          rw [subAux_eq_cons hw]
          simp only [toLowerL, List.map_cons]
          have := ih (isWordChar c) t (by omega)
          simp only [toLowerL] at this
          rw [this]
        | true =>
          rw [subAux_eq_match hw]
          rw [wMatch_eq] at hw
          simp only [Bool.and_eq_true, Bool.not_eq_true'] at hw
          obtain ⟨hb, hpre, hbok⟩ := hw
          obtain ⟨m, hm⟩ : ∃ m, k.length = m + 1 := by
            cases hkc : k with
            | nil => exact absurd hkc hk
            | cons a as => exact ⟨as.length, by simp⟩
          have hsplit := eq_append_drop_of_isPreL hpre
          rw [toLowerL_append, hkn]
          have hdr : (toLowerL (c :: t)).drop k.length = toLowerL (t.drop (k.length - 1)) := by
            rw [← toLowerL_drop]
            congr 1
            rw [hm]
            simp
          rw [ih true (t.drop (k.length - 1)) (by simp only [List.length_drop]; omega)]
          rw [hsplit]
          congr 1
          exact hdr.symm
  intro b s
  exact H s.length b s (Nat.le_refl _)

theorem stripCI_append {n : List Char} (k X : List Char) (hkn : toLowerL n = k) :
    stripCI k (n ++ X) = some X := by
  induction n generalizing k with
  | nil => rw [← hkn]; rfl
  | cons a as ih =>
    subst hkn
    simp only [toLowerL, List.map_cons, List.cons_append]
    show (if lowerChar a = lowerChar a then stripCI (List.map lowerChar as) (as ++ X)
        else none) = some X
    rw [if_pos rfl]
    exact ih _ rfl

theorem bOk_subAux (k n r : List Char) : bOk (subAux k n true r) = bOk r := by
  cases r with
  | nil => rw [subAux_nil]
  | cons c t =>
    have hw : wMatch k true (c :: t) = false := by
      rw [wMatch_eq]
      simp
    rw [subAux_eq_cons hw]
    rfl

/-- One word-bounded substitution pass is idempotent. -/
theorem subAux_idem {k n : List Char} (hkn : toLowerL n = k) (hk : k ≠ []) :
    ∀ (b : Bool) (s : List Char), subAux k n b (subAux k n b s) = subAux k n b s := by
  have hn : n ≠ [] := by
    intro h
    rw [h] at hkn
    exact hk hkn.symm
  have hnk : n.length = k.length := by rw [← hkn, toLowerL_length]
  have H : ∀ (N : Nat) (b : Bool) (s : List Char), s.length ≤ N →
      subAux k n b (subAux k n b s) = subAux k n b s := by
    intro N
    induction N with
    | zero =>
      intro b s hN
      have hs : s = [] := List.length_eq_zero.mp (Nat.le_zero.mp hN)
      rw [hs, subAux_nil, subAux_nil]
    | succ N ih =>
      intro b s hN
      cases s with
      | nil => rw [subAux_nil, subAux_nil]
      | cons c t =>
        simp only [List.length_cons] at hN
        cases hw : wMatch k b (c :: t) with
        | true =>
          rw [subAux_eq_match hw]
          rw [wMatch_eq] at hw
          simp only [Bool.and_eq_true, Bool.not_eq_true'] at hw
          obtain ⟨hb, hpre, hbok⟩ := hw
          obtain ⟨n0, nt, hnc⟩ : ∃ n0 nt, n = n0 :: nt := by
            cases hncc : n with
            | nil => exact absurd hncc hn
            | cons n0 nt => exact ⟨n0, nt, rfl⟩
          have hwm2 : wMatch k b (n ++ subAux k n true (t.drop (k.length - 1))) = true := by
            unfold wMatch
            rw [stripCI_append k _ hkn, hb]
            simp only [Bool.not_false, Bool.true_and]
            rw [bOk_subAux]
            have hdr : (c :: t).drop k.length = t.drop (k.length - 1) := by
              have : k.length = (k.length - 1) + 1 := by
                cases hkc : k with
                | nil => exact absurd hkc hk
                | cons a as => simp
              rw [this]
              simp
            rw [← hdr]
            exact hbok
          rw [hnc] at hwm2 ⊢
          simp only [List.cons_append] at hwm2 ⊢
          rw [subAux_eq_match hwm2]
          have hnt : nt.length = k.length - 1 := by
            rw [hnc] at hnk
            simp only [List.length_cons] at hnk
            omega
          have hdl : (nt ++ subAux k (n0 :: nt) true (t.drop (k.length - 1))).drop (k.length - 1) =
              subAux k (n0 :: nt) true (t.drop (k.length - 1)) := by
            rw [← hnt, List.drop_left]
          rw [hdl]
          have := ih true (t.drop (k.length - 1))
            (by simp only [List.length_drop]; omega)
          rw [hnc] at this
          rw [this]
          rfl
        | false =>
          rw [subAux_eq_cons hw]
          have hsk : toLowerL (c :: subAux k n (isWordChar c) t) = toLowerL (c :: t) := by
            simp only [toLowerL, List.map_cons]
            have := toLowerL_subAux hkn hk (isWordChar c) t
            simp only [toLowerL] at this
            rw [this]
          have hw2 : wMatch k b (c :: subAux k n (isWordChar c) t) = false := by
            rw [wMatch_skeleton k b hsk]
            exact hw
          rw [subAux_eq_cons hw2]
          congr 1
          exact ih (isWordChar c) t (by omega)
  intro b s
  exact H s.length b s (Nat.le_refl _)

/-- Walking a run of letters on which the key does not match at the head
only flips the boundary state to `true`. -/
theorem subAux_walk {k n : List Char} :
    ∀ (w : List Char), w ≠ [] → ∀ (b : Bool) (X : List Char),
    (∀ c ∈ w, isAlphaChar c = true) →
    wMatch k b (w ++ X) = false →
    subAux k n b (w ++ X) = w ++ subAux k n true X := by
  intro w
  induction w with
  | nil => intro h; exact absurd rfl h
  | cons c w2 ih =>
    intro _ b X halpha hnm
    simp only [List.cons_append] at hnm ⊢
    rw [subAux_eq_cons hnm]
    have hc : isWordChar c = true := isWordChar_of_alpha (halpha c (by simp))
    rw [hc]
    cases w2 with
    | nil => simp
    | cons d w3 =>
      congr 1
      have hnm2 : wMatch k true ((d :: w3) ++ X) = false := by
        rw [wMatch_eq]
        simp
      have halpha2 : ∀ e ∈ d :: w3, isAlphaChar e = true := by
        intro e he
        exact halpha e (List.mem_cons_of_mem c he)
      exact ih (by simp) true X halpha2 hnm2

theorem isPreL_length : ∀ {k s : List Char}, isPreL k s = true → k.length ≤ s.length := by
  intro k
  induction k with
  | nil => intro s _; simp
  | cons a as ih =>
    intro s h
    cases s with
    | nil => exact absurd h (by simp [isPreL])
    | cons b bs =>
      simp only [isPreL, Bool.and_eq_true] at h
      simpa using ih h.2

theorem isPreL_antisymm_cases : ∀ {a : List Char} {b s : List Char},
    isPreL a s = true → isPreL b s = true →
    isPreL a b = true ∨ isPreL b a = true := by
  intro a
  induction a with
  | nil => intro b s _ _; left; rfl
  | cons x xs ih =>
    intro b s ha hb
    cases b with
    | nil => right; rfl
    | cons y ys =>
      cases s with
      | nil => exact absurd ha (by simp [isPreL])
      | cons z zs =>
        simp only [isPreL, Bool.and_eq_true, decide_eq_true_eq] at ha hb
        obtain ⟨hxz, ha2⟩ := ha
        obtain ⟨hyz, hb2⟩ := hb
        have hxy : x = y := hxz.trans hyz.symm
        rcases ih ha2 hb2 with h | h
        · left
          simp [isPreL, hxy, h]
        · right
          simp [isPreL, hxy.symm, h]

theorem isPreL_self_append : ∀ (k y : List Char), isPreL k (k ++ y) = true := by
  intro k y
  induction k with
  | nil => rfl
  | cons a as ih => simp [isPreL, ih]

/-- A key matches nowhere on a string whose lowering starts with a key
that is prefix-incomparable with it. -/
theorem wMatch_false_of_lower_append {k kp : List Char} (hpp : isPreL k kp = false)
    (hpp2 : isPreL kp k = false) {s y : List Char}
    (hsk : toLowerL s = kp ++ y) (b : Bool) : wMatch k b s = false := by
  rw [wMatch_eq]
  cases hp : isPreL k (toLowerL s) with
  | false => simp
  | true =>
    rw [hsk] at hp
    rcases isPreL_antisymm_cases hp (isPreL_self_append kp y) with h | h
    · rw [h] at hpp
      exact absurd hpp (by simp)
    · rw [h] at hpp2
      exact absurd hpp2 (by simp)

theorem alpha_of_mem_toLowerL {w : List Char}
    (h : ∀ c ∈ toLowerL w, isAlphaChar c = true) :
    ∀ c ∈ w, isAlphaChar c = true := by
  intro c hc
  have h2 : lowerChar c ∈ toLowerL w := List.mem_map_of_mem lowerChar hc
  rw [← isAlphaChar_lowerChar]
  exact h _ h2

theorem alpha_toLowerL_of_alpha {w : List Char}
    (h : ∀ c ∈ w, isAlphaChar c = true) :
    ∀ c ∈ toLowerL w, isAlphaChar c = true := by
  intro c hc
  obtain ⟨d, hd, hdc⟩ := List.mem_map.mp hc
  rw [← hdc, isAlphaChar_lowerChar]
  exact h d hd

/-- One step of the commutation argument: when the second key matches at
the head, both orders of the two substitution passes rewrite that
occurrence first and then agree by the induction hypothesis. -/
theorem subAux_comm_match {k n kp np : List Char}
    (hkn : toLowerL n = k) (hknp : toLowerL np = kp)
    (hk : k ≠ []) (hkp : kp ≠ [])
    (halpha : ∀ c ∈ n, isAlphaChar c = true)
    (halphap : ∀ c ∈ np, isAlphaChar c = true)
    (hpp : isPreL k kp = false) (hppk : isPreL kp k = false)
    {b : Bool} {c : Char} {t : List Char}
    (ihsym : ∀ s2 : List Char, s2.length ≤ t.length →
      subAux k n true (subAux kp np true s2) = subAux kp np true (subAux k n true s2))
    (hwp : wMatch kp b (c :: t) = true) :
    subAux k n b (subAux kp np b (c :: t)) =
      subAux kp np b (subAux k n b (c :: t)) := by
  have hwp2 := hwp
  rw [wMatch_eq] at hwp2
  simp only [Bool.and_eq_true, Bool.not_eq_true'] at hwp2
  obtain ⟨hb, hpre, hbok⟩ := hwp2
  have hnpne : np ≠ [] := by
    intro h
    rw [h] at hknp
    exact hkp hknp.symm
  obtain ⟨m, hm⟩ : ∃ m, kp.length = m + 1 := by
    cases hkc : kp with
    | nil => exact absurd hkc hkp
    | cons a as => exact ⟨as.length, by simp⟩
  have hdrop : (c :: t).drop kp.length = t.drop (kp.length - 1) := by
    rw [hm]
    simp
  have hbok2 : bOk (t.drop (kp.length - 1)) = true := by
    rw [← hdrop]
    exact hbok
  have htakedrop : t.take (kp.length - 1) ++ t.drop (kp.length - 1) = t :=
    List.take_append_drop _ _
  have hlenkp : kp.length ≤ t.length + 1 := by
    have h2 := isPreL_length hpre
    rw [toLowerL_length] at h2
    simpa using h2
  have hwlen : (t.take (kp.length - 1)).length = kp.length - 1 := by
    simp only [List.length_take]
    omega
  have hsplit : toLowerL (c :: t) = kp ++ (toLowerL (c :: t)).drop kp.length :=
    eq_append_drop_of_isPreL hpre
  have hdl : (toLowerL (c :: t)).drop kp.length = toLowerL (t.drop (kp.length - 1)) := by
    rw [← toLowerL_drop, hdrop]
  have hsplit2 : toLowerL (c :: t) = kp ++ toLowerL (t.drop (kp.length - 1)) := by
    rw [hsplit, hdl]
  have hcat : toLowerL (c :: t.take (kp.length - 1)) ++ toLowerL (t.drop (kp.length - 1)) =
      kp ++ toLowerL (t.drop (kp.length - 1)) := by
    rw [← toLowerL_append]
    rw [show (c :: t.take (kp.length - 1)) ++ t.drop (kp.length - 1) = c :: t from by
      rw [List.cons_append, htakedrop]]
    exact hsplit2
  have hlow_head : toLowerL (c :: t.take (kp.length - 1)) = kp :=
    (List.append_inj' hcat rfl).1
  have halphakp : ∀ e ∈ kp, isAlphaChar e = true := by
    rw [← hknp]
    exact alpha_toLowerL_of_alpha halphap
  have hcw_alpha : ∀ e ∈ c :: t.take (kp.length - 1), isAlphaChar e = true :=
    alpha_of_mem_toLowerL (by rw [hlow_head]; exact halphakp)
  have hc_alpha : isAlphaChar c = true := hcw_alpha c (by simp)
  have hL1 : subAux kp np b (c :: t) =
      np ++ subAux kp np true (t.drop (kp.length - 1)) := subAux_eq_match hwp
  have hlowX : toLowerL (np ++ subAux kp np true (t.drop (kp.length - 1))) =
      kp ++ toLowerL (t.drop (kp.length - 1)) := by
    rw [toLowerL_append, hknp, toLowerL_subAux hknp hkp]
  have hwmL : wMatch k b (np ++ subAux kp np true (t.drop (kp.length - 1))) = false :=
    wMatch_false_of_lower_append hpp hppk hlowX b
  have hL2 : subAux k n b (np ++ subAux kp np true (t.drop (kp.length - 1))) =
      np ++ subAux k n true (subAux kp np true (t.drop (kp.length - 1))) :=
    subAux_walk np hnpne b _ halphap hwmL
  have hwk : wMatch k b (c :: t) = false :=
    wMatch_false_of_lower_append hpp hppk hsplit2 b
  have hR1 : subAux k n b (c :: t) = c :: subAux k n true t := by
    rw [subAux_eq_cons hwk, isWordChar_of_alpha hc_alpha]
  have hwalk2 : subAux k n true t =
      t.take (kp.length - 1) ++ subAux k n true (t.drop (kp.length - 1)) := by
    conv_lhs => rw [← htakedrop]
    cases htk : t.take (kp.length - 1) with
    | nil => simp
    | cons d w3 =>
      refine subAux_walk (d :: w3) (by simp) true _ ?_ ?_
      · intro e he
        apply hcw_alpha
        rw [htk]
        exact List.mem_cons_of_mem c he
      · rw [wMatch_eq]
        simp
  have hstrip : stripCI kp ((c :: t.take (kp.length - 1)) ++
      subAux k n true (t.drop (kp.length - 1))) =
      some (subAux k n true (t.drop (kp.length - 1))) :=
    stripCI_append kp _ hlow_head
  have hwm2 : wMatch kp b ((c :: t.take (kp.length - 1)) ++
      subAux k n true (t.drop (kp.length - 1))) = true := by
    unfold wMatch
    rw [hstrip, hb]
    simp only [Bool.not_false, Bool.true_and]
    rw [bOk_subAux]
    exact hbok2
  have hR3 : subAux kp np b (c :: (t.take (kp.length - 1) ++
      subAux k n true (t.drop (kp.length - 1)))) =
      np ++ subAux kp np true ((t.take (kp.length - 1) ++
        subAux k n true (t.drop (kp.length - 1))).drop (kp.length - 1)) :=
    subAux_eq_match hwm2
  have hdl2 : (t.take (kp.length - 1) ++
      subAux k n true (t.drop (kp.length - 1))).drop (kp.length - 1) =
      subAux k n true (t.drop (kp.length - 1)) :=
    List.drop_left' hwlen
  rw [hL1, hL2, hR1, hwalk2, hR3, hdl2]
  exact congrArg (np ++ ·)
    (ihsym (t.drop (kp.length - 1)) (by simp only [List.length_drop]; omega))

/-- Two word substitutions whose keys are prefix-incomparable commute. -/
theorem subAux_comm {k n kp np : List Char}
    (hkn : toLowerL n = k) (hknp : toLowerL np = kp)
    (hk : k ≠ []) (hkp : kp ≠ [])
    (halpha : ∀ c ∈ n, isAlphaChar c = true)
    (halphap : ∀ c ∈ np, isAlphaChar c = true)
    (hpp : isPreL k kp = false) (hppk : isPreL kp k = false) :
    ∀ (b : Bool) (s : List Char),
      subAux k n b (subAux kp np b s) = subAux kp np b (subAux k n b s) := by
  have H : ∀ (N : Nat) (b : Bool) (s : List Char), s.length ≤ N →
      subAux k n b (subAux kp np b s) = subAux kp np b (subAux k n b s) := by
    intro N
    induction N with
    | zero =>
      intro b s hN
      have hs : s = [] := List.length_eq_zero.mp (Nat.le_zero.mp hN)
      rw [hs]
      simp only [subAux_nil]
    | succ N ih =>
      intro b s hN
      cases s with
      | nil => simp only [subAux_nil]
      | cons c t =>
        simp only [List.length_cons] at hN
        have htN : t.length ≤ N := by omega
        cases hwp : wMatch kp b (c :: t) with
        | true =>
          exact subAux_comm_match hkn hknp hk hkp halpha halphap hpp hppk
            (fun s2 h2 => ih true s2 (le_trans h2 htN)) hwp
        | false =>
          cases hwk : wMatch k b (c :: t) with
          | true =>
            exact (subAux_comm_match hknp hkn hkp hk halphap halpha hppk hpp
              (fun s2 h2 => (ih true s2 (le_trans h2 htN)).symm) hwk).symm
          | false =>
            rw [subAux_eq_cons hwp, subAux_eq_cons hwk]
            have hskp : toLowerL (c :: subAux kp np (isWordChar c) t) =
                toLowerL (c :: t) := by
              simp only [toLowerL, List.map_cons]
              have h3 := toLowerL_subAux hknp hkp (isWordChar c) t
              simp only [toLowerL] at h3
              rw [h3]
            have hskk : toLowerL (c :: subAux k n (isWordChar c) t) =
                toLowerL (c :: t) := by
              simp only [toLowerL, List.map_cons]
              have h3 := toLowerL_subAux hkn hk (isWordChar c) t
              simp only [toLowerL] at h3
              rw [h3]
            have hw1 : wMatch k b (c :: subAux kp np (isWordChar c) t) = false := by
              rw [wMatch_skeleton k b hskp]
              exact hwk
            have hw2 : wMatch kp b (c :: subAux k n (isWordChar c) t) = false := by
              rw [wMatch_skeleton kp b hskk]
              exact hwp
            rw [subAux_eq_cons hw1, subAux_eq_cons hw2]
            congr 1
            exact ih (isWordChar c) t htN
  intro b s
  exact H s.length b s (Nat.le_refl _)

theorem subWord_applySubs_comm {r : List Char × List Char} (hr : GoodRule r) :
    ∀ (L : List (List Char × List Char)), (∀ rp ∈ L, GoodRule rp) →
    (∀ rp ∈ L, IndepRule r rp) →
    ∀ s, subWord r.1 r.2 (applySubs L s) = applySubs L (subWord r.1 r.2 s) := by
  intro L
  induction L with
  | nil => intro _ _ s; rfl
  | cons rp L2 ih =>
    intro hg hi s
    show subWord r.1 r.2 (applySubs L2 (subWord rp.1 rp.2 s)) = _
    rw [ih (fun q hq => hg q (List.mem_cons_of_mem rp hq))
        (fun q hq => hi q (List.mem_cons_of_mem rp hq))]
    have hgp : GoodRule rp := hg rp (List.mem_cons_self rp L2)
    have hip : IndepRule r rp := hi rp (List.mem_cons_self rp L2)
    show applySubs L2 (subAux r.1 r.2 false (subAux rp.1 rp.2 false s)) =
      applySubs L2 (subAux rp.1 rp.2 false (subAux r.1 r.2 false s))
    rw [subAux_comm hr.1 hgp.1 hr.2.1 hgp.2.1 hr.2.2 hgp.2.2 hip.1 hip.2 false s]

theorem applySubs_idem_of : ∀ (L : List (List Char × List Char)),
    (∀ r ∈ L, GoodRule r) → List.Pairwise IndepRule L →
    ∀ s, applySubs L (applySubs L s) = applySubs L s := by
  intro L
  induction L with
  | nil => intro _ _ s; rfl
  | cons r L2 ih =>
    intro hg hp s
    have hgr : GoodRule r := hg r (List.mem_cons_self r L2)
    have hg2 : ∀ q ∈ L2, GoodRule q := fun q hq => hg q (List.mem_cons_of_mem r hq)
    rcases List.pairwise_cons.mp hp with ⟨hir, hp2⟩
    show applySubs L2 (subWord r.1 r.2 (applySubs L2 (subWord r.1 r.2 s))) =
      applySubs L2 (subWord r.1 r.2 s)
    rw [subWord_applySubs_comm hgr L2 hg2 hir]
    show applySubs L2 (applySubs L2 (subAux r.1 r.2 false (subAux r.1 r.2 false s))) = _
    rw [subAux_idem hgr.1 hgr.2.1 false s]
    exact ih hg2 hp2 _

/-- The seven service substitutions together are idempotent. -/
theorem applySubs_serviceRules_idem (s : List Char) :
    applySubs serviceRules (applySubs serviceRules s) = applySubs serviceRules s :=
  applySubs_idem_of serviceRules (by decide) (by decide) s

/-! ## The substitutions preserve URL-freedom -/

theorem stripCI_head_nonspace {k : List Char} (hk : k ≠ [])
    (halphak : ∀ c ∈ k, isAlphaChar c = true) {b : Bool} {e : Char} {t : List Char}
    (hw : wMatch k b (e :: t) = true) : isPySpace e = false := by
  rw [wMatch_eq] at hw
  simp only [Bool.and_eq_true, Bool.not_eq_true'] at hw
  obtain ⟨_, hpre, _⟩ := hw
  cases hkc : k with
  | nil => exact absurd hkc hk
  | cons k0 kt =>
    rw [hkc] at hpre
    simp only [toLowerL, List.map_cons, isPreL, Bool.and_eq_true,
      decide_eq_true_eq] at hpre
    have ha : isAlphaChar (lowerChar e) = true := by
      rw [← hpre.1]
      exact halphak k0 (by rw [hkc]; simp)
    rw [isAlphaChar_lowerChar] at ha
    exact isPySpace_false_of_alpha ha

theorem subAux_peel {k n : List Char} {d : Char} (hne : n ≠ [])
    (hhead : ∀ n0 nt, n = n0 :: nt → d ≠ n0) {b : Bool} {t X : List Char}
    (h : subAux k n b t = d :: X) :
    ∃ t', t = d :: t' ∧ X = subAux k n (isWordChar d) t' := by
  cases t with
  | nil =>
    rw [subAux_nil] at h
    exact absurd h (by simp)
  | cons c t' =>
    cases hw : wMatch k b (c :: t') with
    | true =>
      rw [subAux_eq_match hw] at h
      cases hnc : n with
      | nil => exact absurd hnc hne
      | cons n0 nt =>
        rw [hnc] at h
        injection h with h1 _
        exact absurd h1.symm (hhead n0 nt hnc)
    | false =>
      rw [subAux_eq_cons hw] at h
      injection h with h1 h2
      refine ⟨t', by rw [h1], ?_⟩
      rw [← h2, h1]

/-- If a URL starts at `c` followed by the image of a substitution pass,
then a URL already starts at `c` followed by the original text. -/
theorem matchUrl_transfer_sub {k n : List Char} (hne : n ≠ [])
    (hk : k ≠ []) (halphak : ∀ c ∈ k, isAlphaChar c = true)
    (hhead : ∀ n0 nt, n = n0 :: nt → ∀ d ∈ (['t', 'p', 's', ':', '/'] : List Char), d ≠ n0)
    {c : Char} {b : Bool} {t : List Char} {p : List Char × List Char}
    (h : matchUrl (c :: subAux k n b t) = some p) :
    (matchUrl (c :: t)).isSome = true := by
  rcases matchUrl_some_shape h with ⟨z0, zt, heq, hsp⟩ | ⟨z0, zt, heq, hsp⟩
  · injection heq with hc hrest
    obtain ⟨t1, ht1, hX1⟩ := subAux_peel hne (fun n0 nt hn => hhead n0 nt hn 't' (by decide)) hrest
    obtain ⟨t2, ht2, hX2⟩ := subAux_peel hne (fun n0 nt hn => hhead n0 nt hn 't' (by decide)) hX1.symm
    obtain ⟨t3, ht3, hX3⟩ := subAux_peel hne (fun n0 nt hn => hhead n0 nt hn 'p' (by decide)) hX2.symm
    obtain ⟨t4, ht4, hX4⟩ := subAux_peel hne (fun n0 nt hn => hhead n0 nt hn ':' (by decide)) hX3.symm
    obtain ⟨t5, ht5, hX5⟩ := subAux_peel hne (fun n0 nt hn => hhead n0 nt hn '/' (by decide)) hX4.symm
    obtain ⟨t6, ht6, hX6⟩ := subAux_peel hne (fun n0 nt hn => hhead n0 nt hn '/' (by decide)) hX5.symm
    subst hc ht1 ht2 ht3 ht4 ht5 ht6
    cases t6 with
    | nil =>
      rw [subAux_nil] at hX6
      exact absurd hX6.symm (by simp)
    | cons e t7 =>
      cases hw : wMatch k (isWordChar '/') (e :: t7) with
      | true => exact matchUrl_isSome_http (stripCI_head_nonspace hk halphak hw)
      | false =>
        rw [subAux_eq_cons hw] at hX6
        injection hX6.symm with h1 _
        have hspe : isPySpace e = false := by
          rw [h1]
          exact hsp
        exact matchUrl_isSome_http hspe
  · injection heq with hc hrest
    obtain ⟨t1, ht1, hX1⟩ := subAux_peel hne (fun n0 nt hn => hhead n0 nt hn 't' (by decide)) hrest
    obtain ⟨t2, ht2, hX2⟩ := subAux_peel hne (fun n0 nt hn => hhead n0 nt hn 't' (by decide)) hX1.symm
    obtain ⟨t3, ht3, hX3⟩ := subAux_peel hne (fun n0 nt hn => hhead n0 nt hn 'p' (by decide)) hX2.symm
    obtain ⟨t4, ht4, hX4⟩ := subAux_peel hne (fun n0 nt hn => hhead n0 nt hn 's' (by decide)) hX3.symm
    obtain ⟨t5, ht5, hX5⟩ := subAux_peel hne (fun n0 nt hn => hhead n0 nt hn ':' (by decide)) hX4.symm
    obtain ⟨t6, ht6, hX6⟩ := subAux_peel hne (fun n0 nt hn => hhead n0 nt hn '/' (by decide)) hX5.symm
    obtain ⟨t7, ht7, hX7⟩ := subAux_peel hne (fun n0 nt hn => hhead n0 nt hn '/' (by decide)) hX6.symm
    subst hc ht1 ht2 ht3 ht4 ht5 ht6 ht7
    cases t7 with
    | nil =>
      rw [subAux_nil] at hX7
      exact absurd hX7.symm (by simp)
    | cons e t8 =>
      cases hw : wMatch k (isWordChar '/') (e :: t8) with
      | true => exact matchUrl_isSome_https (stripCI_head_nonspace hk halphak hw)
      | false =>
        rw [subAux_eq_cons hw] at hX7
        injection hX7.symm with h1 _
        have hspe : isPySpace e = false := by
          rw [h1]
          exact hsp
        exact matchUrl_isSome_https hspe

theorem noUrlB_drop : ∀ (m : Nat) {t : List Char}, noUrlB t = true →
    noUrlB (t.drop m) = true := by
  intro m
  induction m with
  | zero => intro t h; exact h
  | succ m ih =>
    intro t h
    cases t with
    | nil => exact h
    | cons c t2 =>
      rw [List.drop_succ_cons]
      exact ih (noUrlB_cons h).2

theorem noUrlB_subAux {k n : List Char} (hne : n ≠ [])
    (hk : k ≠ []) (halphak : ∀ c ∈ k, isAlphaChar c = true)
    (hnh : ∀ c ∈ n, c ≠ 'h')
    (hhead : ∀ n0 nt, n = n0 :: nt → ∀ d ∈ (['t', 'p', 's', ':', '/'] : List Char), d ≠ n0) :
    ∀ (b : Bool) {s : List Char}, noUrlB s = true → noUrlB (subAux k n b s) = true := by
  have H : ∀ (N : Nat) (b : Bool) (s : List Char), s.length ≤ N → noUrlB s = true →
      noUrlB (subAux k n b s) = true := by
    intro N
    induction N with
    | zero =>
      intro b s hN hs
      have h0 : s = [] := List.length_eq_zero.mp (Nat.le_zero.mp hN)
      rw [h0, subAux_nil]
      rfl
    | succ N ih =>
      intro b s hN hs
      cases s with
      | nil =>
        rw [subAux_nil]
        rfl
      | cons c t =>
        simp only [List.length_cons] at hN
        obtain ⟨hm, ht⟩ := noUrlB_cons hs
        cases hw : wMatch k b (c :: t) with
        | true =>
          rw [subAux_eq_match hw, noUrlB_append_noh hnh]
          exact ih true (t.drop (k.length - 1)) (by simp only [List.length_drop]; omega)
            (noUrlB_drop _ ht)
        | false =>
          rw [subAux_eq_cons hw]
          show ((matchUrl (c :: subAux k n (isWordChar c) t)).isNone &&
            noUrlB (subAux k n (isWordChar c) t)) = true
          have h2 : noUrlB (subAux k n (isWordChar c) t) = true :=
            ih (isWordChar c) t (by omega) ht
          have h1 : (matchUrl (c :: subAux k n (isWordChar c) t)).isNone = true := by
            cases hm2 : matchUrl (c :: subAux k n (isWordChar c) t) with
            | none => rfl
            | some p2 =>
              have h3 := matchUrl_transfer_sub hne hk halphak hhead hm2
              rw [hm] at h3
              exact absurd h3 (by simp)
          rw [h1, h2]
          rfl
  intro b s hs
  exact H s.length b s le_rfl hs

theorem noUrlB_applySubs_of : ∀ (L : List (List Char × List Char)),
    (∀ r ∈ L, UrlSafeRule r) → ∀ {s : List Char}, noUrlB s = true →
    noUrlB (applySubs L s) = true := by
  intro L
  induction L with
  | nil => intro _ _ hs; exact hs
  | cons r L2 ih =>
    intro hu s hs
    have hur : UrlSafeRule r := hu r (List.mem_cons_self r L2)
    show noUrlB (applySubs L2 (subWord r.1 r.2 s)) = true
    have hhead : ∀ n0 nt, r.2 = n0 :: nt →
        ∀ d ∈ (['t', 'p', 's', ':', '/'] : List Char), d ≠ n0 := by
      intro n0 nt hn d hd heq
      exact hur.2.2.2.2 d hd (by rw [hn, heq]; rfl)
    exact ih (fun q hq => hu q (List.mem_cons_of_mem r hq))
      (noUrlB_subAux hur.1 hur.2.1 hur.2.2.1 hur.2.2.2.1 hhead false hs)

theorem noUrlB_applySubs_serviceRules {s : List Char} (hs : noUrlB s = true) :
    noUrlB (applySubs serviceRules s) = true :=
  noUrlB_applySubs_of serviceRules (by decide) hs

/-- The sanitizer `replace_urls_with_service ∘ remove_urls` is idempotent
on every string. -/
theorem sanL_idem (l : List Char) : sanL (sanL l) = sanL l := by
  have h1 : noUrlB (removeStr l) = true := noUrlB_remove l
  have h2 : replaceStr (removeStr l) = applySubs serviceRules (removeStr l) := by
    unfold replaceStr
    rw [urlPass_id_of_noUrl h1]
  have h3 : noUrlB (applySubs serviceRules (removeStr l)) = true :=
    noUrlB_applySubs_serviceRules h1
  show replaceStr (removeStr (replaceStr (removeStr l))) = replaceStr (removeStr l)
  rw [h2, removeStr_id_of_noUrl h3]
  unfold replaceStr
  rw [urlPass_id_of_noUrl h3, applySubs_serviceRules_idem]

/-! ## Sanitizer idempotence at the field, step and plan level -/

theorem sanS_idem (s : String) : sanS (sanS s) = sanS s := by
  show (⟨sanL (sanL s.data)⟩ : String) = ⟨sanL s.data⟩
  rw [sanL_idem]

theorem sanS_map_idem (o : Option String) : (o.map sanS).map sanS = o.map sanS := by
  rw [Option.map_map]
  cases o with
  | none => rfl
  | some s =>
    show some (sanS (sanS s)) = some (sanS s)
    rw [sanS_idem]

theorem sanStep_idem (st : Step) : sanStep (sanStep st) = sanStep st := by
  show Step.mk ((st.action.map sanS).map sanS) ((st.target.map sanS).map sanS)
      ((st.value.map sanS).map sanS) = _
  rw [sanS_map_idem, sanS_map_idem, sanS_map_idem]
  rfl

theorem sanPlan_eq (p : Plan) : replP (remP p) = sanPlan p := by
  unfold replP remP sanPlan sanStep
  simp only [Option.map_map, List.map_map]
  congr 1
  apply List.map_congr_left
  intro st _
  simp only [Function.comp_apply, Option.map_map]
  rfl

/-! ## Branch equations of `processStep` -/

theorem processStep_user_eq (creds : Creds) (tn : String) (prompt : String → String)
    (env : Env) (st : Step) (ha : st.action = some "type")
    (hc : (inS "username" (pyLowerS (st.target.getD "")) ||
      hasWordUser (pyLowerS (st.target.getD "")).data) = true) :
    processStep creds tn prompt env st = identBranch creds.usernames st env := by
  unfold processStep identBranch
  rw [if_neg (by simp [ha])]
  dsimp only
  rw [if_pos hc]

theorem processStep_mail_eq (creds : Creds) (tn : String) (prompt : String → String)
    (env : Env) (st : Step) (ha : st.action = some "type")
    (hc1 : (inS "username" (pyLowerS (st.target.getD "")) ||
      hasWordUser (pyLowerS (st.target.getD "")).data) = false)
    (hc2 : (inS "mail" (pyLowerS (st.target.getD "")) ||
      inS "email" (pyLowerS (st.target.getD ""))) = true) :
    processStep creds tn prompt env st = identBranch creds.emails st env := by
  unfold processStep identBranch
  rw [if_neg (by simp [ha])]
  dsimp only
  rw [if_neg (by simp [hc1]), if_pos hc2]

theorem processStep_phone_eq (creds : Creds) (tn : String) (prompt : String → String)
    (env : Env) (st : Step) (ha : st.action = some "type")
    (hc1 : (inS "username" (pyLowerS (st.target.getD "")) ||
      hasWordUser (pyLowerS (st.target.getD "")).data) = false)
    (hc2 : (inS "mail" (pyLowerS (st.target.getD "")) ||
      inS "email" (pyLowerS (st.target.getD ""))) = false)
    (hc3 : (inS "phone" (pyLowerS (st.target.getD "")) ||
      inS "number" (pyLowerS (st.target.getD ""))) = true) :
    processStep creds tn prompt env st = identBranch creds.phones st env := by
  unfold processStep identBranch
  rw [if_neg (by simp [ha])]
  dsimp only
  rw [if_neg (by simp [hc1]), if_neg (by simp [hc2]), if_pos hc3]

theorem processStep_pass_eq (creds : Creds) (tn : String) (prompt : String → String)
    (env : Env) (st : Step) (ha : st.action = some "type")
    (hc1 : (inS "username" (pyLowerS (st.target.getD "")) ||
      hasWordUser (pyLowerS (st.target.getD "")).data) = false)
    (hc2 : (inS "mail" (pyLowerS (st.target.getD "")) ||
      inS "email" (pyLowerS (st.target.getD ""))) = false)
    (hc3 : (inS "phone" (pyLowerS (st.target.getD "")) ||
      inS "number" (pyLowerS (st.target.getD ""))) = false)
    (hc4 : (inS "password" (pyLowerS (st.target.getD "")) ||
      hasWordPassPwd (pyLowerS (st.target.getD "")).data) = true) :
    processStep creds tn prompt env st = passBranch creds tn prompt st env := by
  unfold processStep passBranch
  rw [if_neg (by simp [ha])]
  dsimp only
  rw [if_neg (by simp [hc1]), if_neg (by simp [hc2]), if_neg (by simp [hc3]), if_pos hc4]

theorem processStep_none_eq (creds : Creds) (tn : String) (prompt : String → String)
    (env : Env) (st : Step) (ha : st.action = some "type")
    (hc1 : (inS "username" (pyLowerS (st.target.getD "")) ||
      hasWordUser (pyLowerS (st.target.getD "")).data) = false)
    (hc2 : (inS "mail" (pyLowerS (st.target.getD "")) ||
      inS "email" (pyLowerS (st.target.getD ""))) = false)
    (hc3 : (inS "phone" (pyLowerS (st.target.getD "")) ||
      inS "number" (pyLowerS (st.target.getD ""))) = false)
    (hc4 : (inS "password" (pyLowerS (st.target.getD "")) ||
      hasWordPassPwd (pyLowerS (st.target.getD "")).data) = false) :
    processStep creds tn prompt env st = (st, env) := by
  unfold processStep
  rw [if_neg (by simp [ha])]
  dsimp only
  rw [if_neg (by simp [hc1]), if_neg (by simp [hc2]), if_neg (by simp [hc3]),
    if_neg (by simp [hc4])]

/-- Under the proviso that either the instruction carries a non-empty
password or every prompt answer strips to a non-empty string, the
password branch always has a non-empty secret. -/
theorem realSecret_nonempty {creds : Creds} {prompt : String → String}
    (hprov : (∃ p, creds.password = some p ∧ p ≠ "") ∨ ∀ s2, pyStripS (prompt s2) ≠ "")
    (current : String) (s2 : String) :
    realSecret creds current (pyStripS (prompt s2)) ≠ "" := by
  rcases hprov with ⟨p, hp, hpne⟩ | hps
  · unfold realSecret
    rw [hp]
    simp only []
    rw [if_pos hpne]
    exact hpne
  · unfold realSecret
    cases hcp : creds.password with
    | none =>
      simp only []
      split
      · next h =>
        simp only [Bool.and_eq_true, decide_eq_true_eq] at h
        exact h.1
      · exact hps s2
    | some p =>
      simp only []
      split
      · next h => exact h
      · split
        · next h =>
          simp only [Bool.and_eq_true, decide_eq_true_eq] at h
          exact h.1
        · exact hps s2

theorem identBranch_cases (L : List String) (st : Step) (env : Env) :
    (identBranch L st env).1 = st ∨
    ∃ u us, L = u :: us ∧ u ≠ "" ∧
      (identBranch L st env).1 = { st with value := some u } := by
  unfold identBranch
  cases L with
  | nil =>
    dsimp only
    split
    · next hv =>
      left
      cases hval : st.value with
      | none =>
        rw [hval] at hv
        simp at hv
      | some x =>
        show Step.mk st.action st.target (some x) = st
        rw [← hval]
    · left
      rfl
  | cons u us =>
    dsimp only
    split
    · next hv => exact Or.inr ⟨u, us, rfl, hv, rfl⟩
    · left
      rfl

theorem identBranch_write (L : List String) (st : Step) (env : Env)
    {u : String} {us : List String} (hL : L = u :: us) (hu : u ≠ "")
    (V : Option String) :
    (identBranch L { st with value := V } env).1 = { st with value := some u } := by
  subst hL
  unfold identBranch
  dsimp only
  rw [if_pos hu]

theorem passBranch_write (creds : Creds) (tn : String) (prompt : String → String)
    (st : Step) (env : Env)
    (hrv : realSecret creds (st.value.getD "")
      (pyStripS (prompt (detect_service_from_text (pyLowerS (st.target.getD "")) tn))) ≠ "") :
    (passBranch creds tn prompt st env).1 =
      { st with value := some (mkPlaceholder ("PASSWORD_" ++
        detect_service_from_text (pyLowerS (st.target.getD "")) tn)) } := by
  unfold passBranch
  dsimp only
  rw [if_pos hrv]

/-- Re-running `handle_login_credentials`'s step transformer on the
re-sanitized output of a first run reproduces the first run's output,
provided a non-empty secret source exists. -/
theorem processStep_rerun (creds : Creds) (tn : String) (prompt : String → String)
    (hprov : (∃ p, creds.password = some p ∧ p ≠ "") ∨ ∀ s2, pyStripS (prompt s2) ≠ "")
    (env1 env2 : Env) (st : Step) (hsan : sanStep st = st) :
    (processStep creds tn prompt env2
      (sanStep (processStep creds tn prompt env1 st).1)).1 =
      (processStep creds tn prompt env1 st).1 := by
  have hact : st.action.map sanS = st.action := congrArg Step.action hsan
  have htgt : st.target.map sanS = st.target := congrArg Step.target hsan
  by_cases heq : (processStep creds tn prompt env1 st).1 = st
  · rw [heq, hsan, processStep_fst_env creds tn prompt env2 env1 st]
    exact heq
  · by_cases ha : st.action = some "type"
    case neg =>
      have h1 : processStep creds tn prompt env1 st = (st, env1) := by
        unfold processStep
        rw [if_pos (by simp [ha])]
      exact absurd (congrArg Prod.fst h1) heq
    case pos =>
    by_cases hc1 : (inS "username" (pyLowerS (st.target.getD "")) ||
        hasWordUser (pyLowerS (st.target.getD "")).data) = true
    · have he := processStep_user_eq creds tn prompt env1 st ha hc1
      rcases identBranch_cases creds.usernames st env1 with hres | ⟨u, us, hL, hu, hres⟩
      · exact absurd ((congrArg Prod.fst he).trans hres) heq
      · have hres2 : (processStep creds tn prompt env1 st).1 = { st with value := some u } :=
          (congrArg Prod.fst he).trans hres
        rw [hres2]
        have hss : sanStep { st with value := some u } = { st with value := some (sanS u) } := by
          show Step.mk (st.action.map sanS) (st.target.map sanS) (some (sanS u)) = _
          rw [hact, htgt]
        rw [hss]
        have he2 := processStep_user_eq creds tn prompt env2
          { st with value := some (sanS u) } ha hc1
        rw [he2]
        exact identBranch_write creds.usernames st env2 hL hu _
    · simp only [Bool.not_eq_true] at hc1
      by_cases hc2 : (inS "mail" (pyLowerS (st.target.getD "")) ||
          inS "email" (pyLowerS (st.target.getD ""))) = true
      · have he := processStep_mail_eq creds tn prompt env1 st ha hc1 hc2
        rcases identBranch_cases creds.emails st env1 with hres | ⟨u, us, hL, hu, hres⟩
        · exact absurd ((congrArg Prod.fst he).trans hres) heq
        · have hres2 : (processStep creds tn prompt env1 st).1 = { st with value := some u } :=
            (congrArg Prod.fst he).trans hres
          rw [hres2]
          have hss : sanStep { st with value := some u } = { st with value := some (sanS u) } := by
            show Step.mk (st.action.map sanS) (st.target.map sanS) (some (sanS u)) = _
            rw [hact, htgt]
          rw [hss]
          have he2 := processStep_mail_eq creds tn prompt env2
            { st with value := some (sanS u) } ha hc1 hc2
          rw [he2]
          exact identBranch_write creds.emails st env2 hL hu _
      · simp only [Bool.not_eq_true] at hc2
        by_cases hc3 : (inS "phone" (pyLowerS (st.target.getD "")) ||
            inS "number" (pyLowerS (st.target.getD ""))) = true
        · have he := processStep_phone_eq creds tn prompt env1 st ha hc1 hc2 hc3
          rcases identBranch_cases creds.phones st env1 with hres | ⟨u, us, hL, hu, hres⟩
          · exact absurd ((congrArg Prod.fst he).trans hres) heq
          · have hres2 : (processStep creds tn prompt env1 st).1 = { st with value := some u } :=
              (congrArg Prod.fst he).trans hres
            rw [hres2]
            have hss : sanStep { st with value := some u } = { st with value := some (sanS u) } := by
              show Step.mk (st.action.map sanS) (st.target.map sanS) (some (sanS u)) = _
              rw [hact, htgt]
            rw [hss]
            have he2 := processStep_phone_eq creds tn prompt env2
              { st with value := some (sanS u) } ha hc1 hc2 hc3
            rw [he2]
            exact identBranch_write creds.phones st env2 hL hu _
        · simp only [Bool.not_eq_true] at hc3
          by_cases hc4 : (inS "password" (pyLowerS (st.target.getD "")) ||
              hasWordPassPwd (pyLowerS (st.target.getD "")).data) = true
          · have he := processStep_pass_eq creds tn prompt env1 st ha hc1 hc2 hc3 hc4
            have hrv1 : realSecret creds (st.value.getD "")
                (pyStripS (prompt (detect_service_from_text
                  (pyLowerS (st.target.getD "")) tn))) ≠ "" :=
              realSecret_nonempty hprov _ _
            have hres2 : (processStep creds tn prompt env1 st).1 =
                { st with value := some (mkPlaceholder ("PASSWORD_" ++
                  detect_service_from_text (pyLowerS (st.target.getD "")) tn)) } :=
              (congrArg Prod.fst he).trans
                (passBranch_write creds tn prompt st env1 hrv1)
            rw [hres2]
            have hss : sanStep { st with value := some (mkPlaceholder ("PASSWORD_" ++
                detect_service_from_text (pyLowerS (st.target.getD "")) tn)) } =
                { st with value := some (sanS (mkPlaceholder ("PASSWORD_" ++
                  detect_service_from_text (pyLowerS (st.target.getD "")) tn))) } := by
              show Step.mk (st.action.map sanS) (st.target.map sanS) _ = _
              rw [hact, htgt]
              rfl
            rw [hss]
            have he2 := processStep_pass_eq creds tn prompt env2
              { st with value := some (sanS (mkPlaceholder ("PASSWORD_" ++
                detect_service_from_text (pyLowerS (st.target.getD "")) tn))) }
              ha hc1 hc2 hc3 hc4
            rw [he2]
            exact passBranch_write creds tn prompt
              { st with value := some (sanS (mkPlaceholder ("PASSWORD_" ++
                detect_service_from_text (pyLowerS (st.target.getD "")) tn))) }
              env2 (realSecret_nonempty hprov _ _)
          · simp only [Bool.not_eq_true] at hc4
            have h1 := processStep_none_eq creds tn prompt env1 st ha hc1 hc2 hc3 hc4
            exact absurd (congrArg Prod.fst h1) heq

theorem processSteps_rerun (creds : Creds) (tn : String) (prompt : String → String)
    (hprov : (∃ p, creds.password = some p ∧ p ≠ "") ∨ ∀ s2, pyStripS (prompt s2) ≠ "") :
    ∀ (steps0 : List Step) (env1 env2 : Env),
    (processSteps creds tn prompt env2
      ((processSteps creds tn prompt env1 (steps0.map sanStep)).1.map sanStep)).1 =
      (processSteps creds tn prompt env1 (steps0.map sanStep)).1 := by
  intro steps0
  induction steps0 with
  | nil => intro env1 env2; rfl
  | cons st0 rest ih =>
    intro env1 env2
    simp only [List.map_cons, processSteps]
    congr 1
    · exact processStep_rerun creds tn prompt hprov env1 env2 (sanStep st0) (sanStep_idem st0)
    · exact ih _ _

/-! # Claim C3: idempotence of the sanitizer pipeline (conclusion) -/

unseal removeStr urlPass subAux in
/-- C3 (counterexample to the original claim): the Plan Sanitizer
Pipeline is not idempotent as stated.  With no password in the
instruction and an empty prompt, a task name "my instagram" produces the
placeholder `${PASSWORD_MY INSTAGRAM}` on the first run; the second
run's service-canonicalization pass rewrites it to
`${PASSWORD_MY Instagram}` and the password branch, now without any
non-empty secret source, leaves that altered value in place. -/
theorem C3_counterexample :
    (pipeline c3instr c3prompt (pipeline c3instr c3prompt [] c3plan).2
      (pipeline c3instr c3prompt [] c3plan).1).1 ≠
      (pipeline c3instr c3prompt [] c3plan).1 := by
  decide

/-- C3 (amended): whenever a non-empty secret source exists — the
instruction carries a non-empty password, or every password prompt
strips to a non-empty answer — the Plan Sanitizer Pipeline
(`remove_urls`, then `replace_urls_with_service`, then
`handle_login_credentials`) is idempotent on the plan: re-running it on
its own output plan with the same instruction returns that plan
unchanged, for any starting environments. -/
theorem C3_pipeline_idempotent (instr : String) (prompt : String → String)
    (env1 env2 : Env) (p : Plan)
    (hprov : (∃ pw, (extract_credentials_from_instruction instr).password = some pw ∧
        pw ≠ "") ∨ ∀ s2, pyStripS (prompt s2) ≠ "") :
    (pipeline instr prompt env2 (pipeline instr prompt env1 p).1).1 =
      (pipeline instr prompt env1 p).1 := by
  have hplan : ∀ (env : Env) (q : Plan), pipeline instr prompt env q =
      ({ task := q.task.map sanS,
         steps := (processSteps (extract_credentials_from_instruction instr)
           ((q.task.map sanS).getD "GENERAL") prompt env (q.steps.map sanStep)).1 },
       (processSteps (extract_credentials_from_instruction instr)
         ((q.task.map sanS).getD "GENERAL") prompt env (q.steps.map sanStep)).2) := by
    intro env q
    unfold pipeline handle_login_credentials
    rw [sanPlan_eq]
    rfl
  rw [hplan env1 p, hplan env2 _]
  dsimp only
  rw [sanS_map_idem]
  congr 1
  exact processSteps_rerun (extract_credentials_from_instruction instr)
    ((p.task.map sanS).getD "GENERAL") prompt hprov p.steps env1 env2

/-- Witness for the amended C3 theorem: the scenario instruction carries
the non-empty password Secret123, and re-running the pipeline on the
counterexample plan then reproduces the first run's output. -/
theorem C3_pipeline_idempotent_witness :
    ((∃ pw, (extract_credentials_from_instruction c2instr).password = some pw ∧
        pw ≠ "") ∨ ∀ s2, pyStripS (c3prompt s2) ≠ "") ∧
    (pipeline c2instr c3prompt [] (pipeline c2instr c3prompt [] c3plan).1).1 =
      (pipeline c2instr c3prompt [] c3plan).1 :=
  ⟨Or.inl ⟨"Secret123", by decide, by decide⟩,
    C3_pipeline_idempotent c2instr c3prompt [] [] c3plan
      (Or.inl ⟨"Secret123", by decide, by decide⟩)⟩

end PlanSan
